import Mathlib

/-!
Shallow embedding of the miniqmc Monte Carlo move drivers:
`src/Drivers/check_determinant.cpp`, `src/Drivers/miniqmc_sync_move_noref.cpp`
and `src/Drivers/MiniqmcDriverFunctions.hpp`.

Real-valued scalars (positions, random draws, matrix entries) are modelled as
exact rationals: every property settled below concerns control flow, state
framing and event ordering, never floating-point rounding, and rationals keep
every comparison decidable and every definition executable.

Collaborators that the drivers call but whose implementation files are not
among the three sources (ParticleSet bookkeeping, the DiracDeterminant /
wavefunction storage, the spline orbital oracle, the NLPP helpers) are
modelled from the specification; each such definition carries a doc comment
beginning `Modelled from the spec:`.
-/

namespace MiniQMC

/-- Real-valued scalars of the model (`RealType` in the source), as exact rationals. -/
abbrev R := ℚ

/-- A 3-vector (`PosType` in the source). -/
structure Pos where
  x : R
  y : R
  z : R
deriving Repr, DecidableEq

/-- Componentwise vector addition. -/
def Pos.add (a b : Pos) : Pos := ⟨a.x + b.x, a.y + b.y, a.z + b.z⟩

/-- Scalar multiple of a 3-vector (used for `dr = sqrttau * delta[iel]`). -/
def Pos.smul (c : R) (a : Pos) : Pos := ⟨c * a.x, c * a.y, c * a.z⟩

/-- The origin. -/
def Pos.zero : Pos := ⟨0, 0, 0⟩

/-- Modelled from the spec: the per-walker `RandomGenerator` — a reproducible
stream of draws together with a cursor; `generate` hands out the next `n`
values and advances the cursor (§6: same seed gives the same sequence). -/
structure RNG where
  stream : Nat → R
  pos : Nat

/-- Draw `n` values from the stream and advance the cursor.  This models both
`generate_uniform` and `generate_normal`: only the consumption discipline of
the stream matters for the claims, never the distribution of the values. -/
def RNG.generate (g : RNG) (n : Nat) : List R × RNG :=
  ((List.range n).map (fun i => g.stream (g.pos + i)), ⟨g.stream, g.pos + n⟩)

/-- Regroup a flat list of draws into 3-vectors, as
`generate_normal(&delta[0][0], nels3)` fills `ParticlePos_t delta(nels)`. -/
def toPosList : List R → List Pos
  | a :: b :: c :: rest => ⟨a, b, c⟩ :: toPosList rest
  | _ => []

/-- Modelled from the spec: the `ParticleSet` bookkeeping consumed by the
drivers (`Particle/ParticleSet.h` is not among the sources).  `R` holds the
committed positions; `activePtcl`/`activePos` hold the pending trial move of
the active electron (§3: between propose and accept/reject the trial value is
held separately and never persisted). -/
structure ParticleSet where
  R : List Pos
  activePtcl : Int
  activePos : Pos
deriving Repr, DecidableEq

/-- Modelled from the spec: `makeMoveAndCheck` — add the displacement to the
electron's committed position and apply the geometric validity check
(`applyBoundary(position) -> (wrappedPosition, isValid)`, §6).  On success the
trial position is recorded and `true` returned; on failure nothing changes
and `false` is returned (§7: geometric rejection is handled locally). -/
def ParticleSet.makeMoveAndCheck (valid : Pos → Bool) (P : ParticleSet)
    (iel : Nat) (dr : Pos) : ParticleSet × Bool :=
  let newpos := Pos.add (P.R.getD iel Pos.zero) dr
  if valid newpos then
    ({ P with activePtcl := (iel : Int), activePos := newpos }, true)
  else
    (P, false)

/-- Modelled from the spec: `acceptMove` — commit the pending trial position
for electron `iel` into the committed positions (§4.2, on `ACCEPTED`). -/
def ParticleSet.acceptMove (P : ParticleSet) (iel : Nat) : ParticleSet :=
  { P with R := P.R.set iel P.activePos, activePtcl := -1 }

/-- Modelled from the spec: `rejectMove` — drop the pending trial move; the
electron keeps its pre-proposal committed position (§4.2, on `REJECTED`). -/
def ParticleSet.rejectMove (P : ParticleSet) (_iel : Nat) : ParticleSet :=
  { P with activePtcl := -1 }

/-- Modelled from the spec: `donePbyP` — end-of-step finalize of cached
per-electron bookkeeping; committed positions are not changed (§4.2). -/
def ParticleSet.donePbyP (P : ParticleSet) : ParticleSet := P

/-- Dot product of two rows. -/
def dot (xs ys : List R) : R := (List.zipWith (· * ·) xs ys).sum

/-- Column `j` of a row-major matrix. -/
def colOf (m : List (List R)) (j : Nat) : List R :=
  m.map (fun row => row.getD j 0)

/-- Modelled from the spec: the Slater matrix with its maintained inverse and
the scratch candidate row (§4.1; `QMCWaveFunctions/Determinant.h` is not among
the sources).  Row `i` of `psiM` holds the orbital values at electron `i`'s
position; `psiV` is the not-yet-committed candidate row of the active
electron, `none` when no candidate is pending. -/
structure DiracDeterminant where
  psiM : List (List R)
  psiMinv : List (List R)
  psiV : Option (List R)
deriving Repr, DecidableEq

/-- Modelled from the spec: `evaluateRatioAndGradient` (`ratio` in the
drivers) — obtain the candidate orbital row at the trial position from the
oracle, store it in the scratch buffer, and return the determinant ratio as
candidate-row · inverse-column; the matrix and inverse are not mutated
(§4.1). -/
def DiracDeterminant.ratio (d : DiracDeterminant) (oracle : Pos → List R)
    (iel : Nat) (p : Pos) : DiracDeterminant × R :=
  let row := oracle p
  ({ d with psiV := some row }, dot row (colOf d.psiMinv iel))

/-- Modelled from the spec: `commitAcceptedMove` (`acceptMove` in the
drivers) — Sherman–Morrison rank-one update of the inverse from the pending
candidate row: every column `j ≠ iel` gets
`inverse[:,j] -= (candidateRow · inverse[:,j] / ratio) * inverse[:,iel]`, the
pivot column is rescaled by `1/ratio`, and the stored matrix row is replaced
(§4.1).  With no pending candidate nothing changes. -/
def DiracDeterminant.acceptMove (d : DiracDeterminant) (iel : Nat) :
    DiracDeterminant :=
  match d.psiV with
  | none => d
  | some row =>
    let r := dot row (colOf d.psiMinv iel)
    let pivot := colOf d.psiMinv iel
    let inv := d.psiMinv.mapIdx (fun i irow =>
      irow.mapIdx (fun j v =>
        if j = iel then v / r
        else v - dot row (colOf d.psiMinv j) / r * pivot.getD i 0))
    ⟨d.psiM.set iel row, inv, none⟩

/-- Modelled from the spec: `discardMove` — invalidate the scratch candidate
row without mutating the matrix or the inverse (§4.1, rejection path). -/
def DiracDeterminant.discardMove (d : DiracDeterminant) : DiracDeterminant :=
  { d with psiV := none }

/-- Modelled from the spec: `recompute` — assemble the matrix by invoking the
oracle at every committed position and invert it by direct factorization;
the factorization itself is an external dense-linear-algebra routine and is
abstracted as the parameter `linv` (§4.1). -/
def DiracDeterminant.recompute (oracle : Pos → List R)
    (linv : List (List R) → List (List R)) (P : ParticleSet) (nels : Nat) :
    DiracDeterminant :=
  let m := (List.range nels).map (fun i => oracle (P.R.getD i Pos.zero))
  ⟨m, linv m, none⟩

/-- Outcome of one electron step of the check driver. -/
inductive Decision where
  | invalid : Decision
  | accepted : Decision
  | rejected : Decision
deriving Repr, DecidableEq

/-- Walker state of the check_determinant driver: the electron particle set,
the determinant under test and the acceptance counter.  (The source keeps a
reference determinant and a device determinant in lockstep, performing the
identical update sequence on each; one determinant field stands for both.) -/
structure CDState where
  els : ParticleSet
  det : DiracDeterminant
  my_accepted : Nat
deriving Repr, DecidableEq

/-- One electron step of the check_determinant Monte Carlo loop
(`src/Drivers/check_determinant.cpp` lines 450-485): make the trial move and
check it; on failure `continue`; otherwise evaluate the ratio and accept the
move exactly when `ur[iel] > accept`, committing position and determinant,
else reject the move. -/
def checkDetElectronStep (oracle : Pos → List R) (valid : Pos → Bool)
    (accept : R) (ur : List R) (dr : Pos) (iel : Nat) (s : CDState) :
    CDState × Decision :=
  let mv := s.els.makeMoveAndCheck valid iel dr
  if mv.2 = false then
    ({ s with els := mv.1 }, Decision.invalid)
  else
    let rr := s.det.ratio oracle iel mv.1.activePos
    if accept < ur.getD iel 0 then
      (⟨mv.1.acceptMove iel, rr.1.acceptMove iel, s.my_accepted + 1⟩,
        Decision.accepted)
    else
      (⟨mv.1.rejectMove iel, rr.1, s.my_accepted⟩, Decision.rejected)

/-- Map over a list with access to each element's position, the position of
the head being `n`.  Used wherever the batched driver touches "walker number
`iw`" of a list of per-walker values. -/
def mapIdxFrom (f : Nat → α → β) : Nat → List α → List β
  | _, [] => []
  | n, a :: as => f n a :: mapIdxFrom f (n + 1) as

/-- Map over a list with access to each element's position (from 0). -/
def eachIdx (f : Nat → α → β) (l : List α) : List β := mapIdxFrom f 0 l

/-- Number of `true` entries strictly before position `w`: the position a
walker occupies in the dense filtered list of valid walkers
(`filtered_list(mover_list, isValid)` in the source). -/
def countTrueBefore (bs : List Bool) (w : Nat) : Nat :=
  ((bs.take w).filter (fun b => b)).length

/-- One walker of the batched driver: its electron particle set and the
determinant part of its wavefunction storage.  (The source wavefunction also
carries Jastrow factors; they are external collaborators per §1 and take no
part in any claim below.) -/
structure Walker where
  els : ParticleSet
  wf : DiracDeterminant
deriving Repr, DecidableEq

instance : Inhabited Walker :=
  ⟨⟨⟨[], -1, Pos.zero⟩, ⟨[], [], none⟩⟩⟩

/-- Events of the batched driver, in the order the driver performs them. -/
inductive BEv where
  | setActive (iel : Nat)
  | evalGrad (iel w : Nat)
  | ratioGrad (iel w : Nat)
  | commit (iel w : Nat)
  | restore (iel w : Nat)
  | donePbyP
  | evaluateGL
  | nlppEval (pairIdx w : Nat)
deriving Repr, DecidableEq

/-- The electron index an intra-sweep event belongs to. -/
def BEv.elOf : BEv → Nat
  | setActive i => i
  | evalGrad i _ => i
  | ratioGrad i _ => i
  | commit i _ => i
  | restore i _ => i
  | donePbyP => 0
  | evaluateGL => 0
  | nlppEval _ _ => 0

/-- Project out `setActive` events. -/
def BEv.activeOf : BEv → Option Nat
  | setActive i => some i
  | _ => none

/-- Result of one batched electron step: the updated walkers, the advanced
generator of walker 0, the per-walker validity mask, one decision per walker
(`none` = failed the geometric check, so no accept test was performed for it;
`some b` = accept test performed with outcome `b`) and the event trace. -/
structure BStepResult where
  walkers : List Walker
  rng : RNG
  isValid : List Bool
  decs : List (Option Bool)
  evs : List BEv

/-- The uniform accept draws of one batched electron step: `nmovers` values
drawn from walker 0's generator (line 490: `mover_list[0]->rng`). -/
def bstepUr (g : RNG) (nmovers : Nat) : List R := (g.generate nmovers).1

/-- The Gaussian displacement draws of one batched electron step:
`3*nmovers` values drawn from walker 0's generator right after the uniform
ones (line 491), regrouped into one 3-vector per walker. -/
def bstepDelta (g : RNG) (nmovers : Nat) : List Pos :=
  toPosList ((g.generate nmovers).2.generate (3 * nmovers)).1

/-- Walker 0's generator after both draw batches of one electron step. -/
def bstepRng (g : RNG) (nmovers : Nat) : RNG :=
  ((g.generate nmovers).2.generate (3 * nmovers)).2

/-- Proposal plus geometric check, every walker independently (lines
493-503): per walker the particle set after `makeMoveAndCheck` on the scaled
displacement, paired with the validity flag. -/
def bstepMoved (valid : Pos → Bool) (sqrttau : R) (iel : Nat) (g : RNG)
    (ws : List Walker) : List (Walker × Bool) :=
  eachIdx (fun iw wk =>
    let mv := wk.els.makeMoveAndCheck valid iel
        (Pos.smul sqrttau ((bstepDelta g ws.length).getD iw Pos.zero))
    ({ wk with els := mv.1 }, mv.2)) ws

/-- The validity mask of one batched electron step (line 503's `isValid`). -/
def bstepIsValid (valid : Pos → Bool) (sqrttau : R) (iel : Nat) (g : RNG)
    (ws : List Walker) : List Bool :=
  (bstepMoved valid sqrttau iel g ws).map (fun p => p.2)

/-- The accept/reject update of one walker that passed the check
(miniqmc_sync_move_noref.cpp lines 559-575): `fi` is the walker's position
in the dense valid list; acceptance commits the trial position and the
rank-one determinant update, rejection restores the position and discards
the scratch row.  A walker that failed the check (`p.2 = false`) is
untouched. -/
def bstepUpdateWalker (oracle : Pos → List R) (accept : R) (ur : List R)
    (fi : Nat) (iel : Nat) (p : Walker × Bool) : Walker :=
  if p.2 then
    if ur.getD fi 0 < accept then
      ⟨p.1.els.acceptMove iel,
        (p.1.wf.ratio oracle iel p.1.els.activePos).1.acceptMove iel⟩
    else
      ⟨p.1.els.rejectMove iel,
        (p.1.wf.ratio oracle iel p.1.els.activePos).1.discardMove⟩
  else p.1

/-- One electron step of the batched driver
(`src/Drivers/miniqmc_sync_move_noref.cpp` lines 473-576).  All uniform and
Gaussian draws of the whole batch come from walker 0's generator (lines
490-491).  Every walker makes and checks its trial move independently (line
503); the walkers that passed the check form the dense valid list (line
511), the ratio is evaluated only for them (lines 521-555), the accept test
compares `ur` at the walker's position in the valid list against `accept`
(lines 559-563), and commit/restore is applied to the valid list only (lines
569-575). -/
def batchedElectronStep (oracle : Pos → List R) (valid : Pos → Bool)
    (accept : R) (sqrttau : R) (iel : Nat) (g : RNG) (ws : List Walker) :
    BStepResult :=
  let nmovers := ws.length
  let ur := bstepUr g nmovers
  let moved := bstepMoved valid sqrttau iel g ws
  let isValid := bstepIsValid valid sqrttau iel g ws
  let ws2 := eachIdx (fun iw p =>
    bstepUpdateWalker oracle accept ur (countTrueBefore isValid iw) iel p)
    moved
  let decs := eachIdx (fun iw p =>
    if p.2 then some (decide (ur.getD (countTrueBefore isValid iw) 0 < accept))
    else none) moved
  let validIdx := (List.range nmovers).filter (fun w => isValid.getD w false)
  let evs := BEv.setActive iel ::
    ((List.range nmovers).map (fun w => BEv.evalGrad iel w)
      ++ validIdx.map (fun w => BEv.ratioGrad iel w)
      ++ validIdx.map (fun w =>
          if ur.getD (countTrueBefore isValid w) 0 < accept then
            BEv.commit iel w
          else BEv.restore iel w))
  ⟨ws2, bstepRng g nmovers, isValid, decs, evs⟩

/-- The electron loop of one batched sweep, over the given electron indices
(the driver runs it over `0 .. nels-1`, line 473). -/
def batchedSweepAux (oracle : Pos → List R) (valid : Pos → Bool) (accept : R)
    (sqrttau : R) : List Nat → RNG → List Walker →
    List Walker × RNG × List BEv
  | [], g, ws => (ws, g, [])
  | iel :: rest, g, ws =>
    let st := batchedElectronStep oracle valid accept sqrttau iel g ws
    let rst := batchedSweepAux oracle valid accept sqrttau rest st.rng
        st.walkers
    (rst.1, rst.2.1, st.evs ++ rst.2.2)

/-- One full sweep of the batched driver: every electron in order. -/
def batchedSweep (oracle : Pos → List R) (valid : Pos → Bool) (accept : R)
    (sqrttau : R) (nels : Nat) (g : RNG) (ws : List Walker) :
    List Walker × RNG × List BEv :=
  batchedSweepAux oracle valid accept sqrttau (List.range nels) g ws

/-- The substep ("drift-and-diffusion") loop of the batched driver
(line 470): `nsubsteps` consecutive sweeps. -/
def batchedSubsteps (oracle : Pos → List R) (valid : Pos → Bool) (accept : R)
    (sqrttau : R) (nels : Nat) : Nat → RNG → List Walker →
    List Walker × RNG × List BEv
  | 0, g, ws => (ws, g, [])
  | n + 1, g, ws =>
    let sw := batchedSweep oracle valid accept sqrttau nels g ws
    let rst := batchedSubsteps oracle valid accept sqrttau nels n sw.2.1 sw.1
    (rst.1, rst.2.1, sw.2.2 ++ rst.2.2)

/-- Electron-ion pair list of one walker (`SetupEiLists` kernel, lines
621-636): the pairs `(elNum, atNum)` whose electron-ion distance is below
`Rmax`, electrons in the outer loop and ions in the inner loop.  `dist` is
the walker's electron-ion distance table (`UnlikeDTDistances`), a row per
electron; the distance tables themselves are maintained by the particle-set
collaborator and enter the model as data. -/
def eiPairs (Rmax : R) (dist : List (List R)) : List (Int × Int) :=
  (dist.enum.map (fun er =>
    er.2.enum.filterMap (fun ad =>
      if ad.2 < Rmax then some ((er.1 : Int), (ad.1 : Int)) else none))).flatten

/-- The maximum electron-ion pair count over all walkers (`FindNumEiPairs`
kernel plus the mirror-loop maximum, lines 593-616). -/
def maxPairs (Rmax : R) (dists : List (List (List R))) : Nat :=
  (dists.map (fun d => (eiPairs Rmax d).length)).foldr max 0

/-- One walker's `EiLists` row (lines 621-636): `maxSize` slots, first all
filled with electron index `-1` (the second component keeps the view's zero
initialization), then slot `idx` overwritten with the `idx`-th pair for
`idx` below the walker's pair count. -/
def EiList (maxSize : Nat) (pairs : List (Int × Int)) : List (Int × Int) :=
  (List.range maxSize).map (fun i => pairs.getD i (-1, 0))

/-- The quadrature trial evaluations of one walker for one pair slot.
Modelled from the spec: for each of the `nknots` quadrature points the trial
position for the slot's electron is built from its committed position and the
sphere point (`updateTempPosAndRs`, not among the sources), the wavefunction
ratio is evaluated there under the same `evaluateRatioAndGradient` contract
as the main mover, and the evaluation is always followed by `discardMove`
(§4.4); the ratio values are collected in knot order. -/
def slotEvalGo (oracle : Pos → List R) (sphere : Nat → Pos)
    (elNum : Nat) : List Nat → Walker × List R → Walker × List R
  | [], acc => acc
  | k :: ks, acc =>
    let p := Pos.add (acc.1.els.R.getD elNum Pos.zero) (sphere k)
    let rr := acc.1.wf.ratio oracle elNum p
    slotEvalGo oracle sphere elNum ks
      ({ acc.1 with wf := rr.1.discardMove }, acc.2 ++ [rr.2])

/-- The quadrature loop of one walker's pair slot, knots `0 .. nknots-1`. -/
def slotEval (oracle : Pos → List R) (nknots : Nat) (sphere : Nat → Pos)
    (elNum : Nat) (wk : Walker) : Walker × List R :=
  slotEvalGo oracle sphere elNum (List.range nknots) (wk, [])

/-- Modelled from the spec: `WaveFunction::multi_ratio` for one pair slot
(called at line 693; its implementation is not among the sources).  Per §4.4
every walker is visited in lockstep: a walker whose slot holds the sentinel
electron index `-1` is a no-op, otherwise the walker's `nknots` ratio entries
of `ratios` (the flat `nmovers*nknots` vector of line 671) are overwritten
with the quadrature evaluations of the slot's electron, and no wavefunction
state survives beyond the scratch discard. -/
def multi_ratio (oracle : Pos → List R) (nknots : Nat)
    (sphere : Nat → Nat → Pos) (eiLists : List (List (Int × Int))) (i : Nat)
    (ws : List Walker) (ratios : List R) : List Walker × List R :=
  let ws2 := eachIdx (fun iw wk =>
    if ((eiLists.getD iw []).getD i (-1, 0)).1 = -1 then wk
    else
      (slotEval oracle nknots (sphere iw)
        ((eiLists.getD iw []).getD i (-1, 0)).1.toNat wk).1) ws
  let rs2 := eachIdx (fun n v =>
    if ((eiLists.getD (n / nknots) []).getD i (-1, 0)).1 = -1 then v
    else
      (slotEval oracle nknots (sphere (n / nknots))
        ((eiLists.getD (n / nknots) []).getD i (-1, 0)).1.toNat
        (ws.getD (n / nknots) default)).2.getD (n % nknots) v) ratios
  (ws2, rs2)

/-- The pair-slot loop of the NLPP phase (line 676): slot indices in
ascending order, every walker visited at every slot; the trace records one
`nlppEval` event per non-sentinel walker per slot. -/
def nlppLoop (oracle : Pos → List R) (nknots : Nat)
    (sphere : Nat → Nat → Pos) (eiLists : List (List (Int × Int))) :
    List Nat → List Walker → List R → List Walker × List R × List BEv
  | [], ws, rs => (ws, rs, [])
  | i :: rest, ws, rs =>
    let st := multi_ratio oracle nknots sphere eiLists i ws rs
    let evsI := ((List.range ws.length).filter (fun w =>
        ((eiLists.getD w []).getD i (-1, 0)).1 != -1)).map (BEv.nlppEval i)
    let rst := nlppLoop oracle nknots sphere eiLists rest st.1 st.2
    (rst.1, rst.2.1, evsI ++ rst.2.2)

/-- The pseudopotential non-local integration phase of the batched driver
(lines 586-698): count the in-cutoff electron-ion pairs of every walker, take
the maximum, build the sentinel-padded `EiLists`, initialize the flat ratio
vector to `0.0` (line 671) and run the pair-slot loop over
`0 .. maxSize-1`.  `sphere iw k` is walker `iw`'s randomized `k`-th
quadrature point (lines 648-660); `dists` is the per-walker electron-ion
distance data the kernels read. -/
def nlppPhase (oracle : Pos → List R) (Rmax : R) (nknots : Nat)
    (sphere : Nat → Nat → Pos) (dists : List (List (List R)))
    (ws : List Walker) : List Walker × List R × List BEv :=
  let maxSize := maxPairs Rmax dists
  let eiLists := dists.map (fun d => EiList maxSize (eiPairs Rmax d))
  let ratios0 : List R := List.replicate (ws.length * nknots) 0
  nlppLoop oracle nknots sphere eiLists (List.range maxSize) ws ratios0

/-- One full Monte Carlo step of the batched driver (lines 457-699): the
substep loop of sweeps, then `multi_donePbyP` followed by `multi_evaluateGL`
(lines 582-583; both are end-of-step finalizes of cached bookkeeping,
modelled from the spec as not changing positions or matrices), then the
pseudopotential phase. -/
def batchedMCStep (oracle : Pos → List R) (valid : Pos → Bool) (accept : R)
    (sqrttau : R) (Rmax : R) (nknots : Nat) (sphere : Nat → Nat → Pos)
    (nsubsteps nels : Nat) (dists : List (List (List R))) (g : RNG)
    (ws : List Walker) : List Walker × RNG × List BEv :=
  let sub := batchedSubsteps oracle valid accept sqrttau nels nsubsteps g ws
  let nl := nlppPhase oracle Rmax nknots sphere dists sub.1
  (nl.1, sub.2.1, sub.2.2 ++ BEv.donePbyP :: BEv.evaluateGL :: nl.2.2)

/-- The electron loop of one check_determinant sweep over the given electron
indices (lines 450-485), recording `(iel, decision)` per electron.  `ur` is
the vector of uniform draws and `delta` the vector of Gaussian draws of this
sweep; `dr = sqrttau * delta[iel]` (line 456). -/
def checkDetSweepAux (oracle : Pos → List R) (valid : Pos → Bool)
    (accept : R) (sqrttau : R) (ur : List R) (delta : List Pos) :
    List Nat → CDState → CDState × List (Nat × Decision)
  | [], s => (s, [])
  | iel :: rest, s =>
    let st := checkDetElectronStep oracle valid accept ur
        (Pos.smul sqrttau (delta.getD iel Pos.zero)) iel s
    let rst := checkDetSweepAux oracle valid accept sqrttau ur delta rest st.1
    (rst.1, (iel, st.2) :: rst.2)

/-- The substep loop of one check_determinant Monte Carlo step (lines
447-486): each substep draws `3*nels` fresh Gaussian displacements from the
walker's generator (line 449) and sweeps all electrons; `ur` is NOT redrawn.
Trace entries are `(mc, l, iel, decision)`. -/
def checkDetSubsteps (oracle : Pos → List R) (valid : Pos → Bool)
    (accept : R) (sqrttau : R) (ur : List R) (nels : Nat) (mc : Nat) :
    List Nat → RNG → CDState →
    CDState × RNG × List (Nat × Nat × Nat × Decision)
  | [], g, s => (s, g, [])
  | l :: rest, g, s =>
    let gd := g.generate (3 * nels)
    let sw := checkDetSweepAux oracle valid accept sqrttau ur
        (toPosList gd.1) (List.range nels) s
    let rst := checkDetSubsteps oracle valid accept sqrttau ur nels mc rest
        gd.2 sw.1
    (rst.1, rst.2.1,
      sw.2.map (fun p => (mc, l, p.1, p.2)) ++ rst.2.2)

/-- The Monte Carlo step loop of check_determinant (lines 440-489): each step
recomputes the determinant from scratch (lines 442-443), runs the substep
loop and finalizes with `donePbyP` (line 488). -/
def checkDetSteps (oracle : Pos → List R) (valid : Pos → Bool) (accept : R)
    (sqrttau : R) (linv : List (List R) → List (List R)) (ur : List R)
    (nels nsubsteps : Nat) : List Nat → RNG → CDState →
    CDState × RNG × List (Nat × Nat × Nat × Decision)
  | [], g, s => (s, g, [])
  | mc :: rest, g, s =>
    let s0 : CDState :=
      ⟨s.els, DiracDeterminant.recompute oracle linv s.els nels,
        s.my_accepted⟩
    let sub := checkDetSubsteps oracle valid accept sqrttau ur nels mc
        (List.range nsubsteps) g s0
    let s1 : CDState := ⟨sub.1.els.donePbyP, sub.1.det, sub.1.my_accepted⟩
    let rst := checkDetSteps oracle valid accept sqrttau linv ur nels
        nsubsteps rest sub.2.1 s1
    (rst.1, rst.2.1, sub.2.2 ++ rst.2.2)

/-- The whole check_determinant Monte Carlo run (lines 433-489): the uniform
vector `ur` is drawn from the walker's generator exactly once, before the
step loop (line 435: `random_th.generate_uniform(ur.data(), nels)`), and the
step loop then only ever draws Gaussian displacements. -/
def checkDetRun (oracle : Pos → List R) (valid : Pos → Bool) (accept : R)
    (sqrttau : R) (linv : List (List R) → List (List R))
    (nsteps nsubsteps nels : Nat) (g0 : RNG) (s0 : CDState) :
    CDState × RNG × List (Nat × Nat × Nat × Decision) :=
  let gu := g0.generate nels
  checkDetSteps oracle valid accept sqrttau linv gu.1 nels nsubsteps
    (List.range nsteps) gu.2 s0

/-- The option set of check_determinant with the values its `main` assigns
before option parsing (lines 329-339 and 427-435). -/
structure CheckDetOptions where
  na : Int
  nb : Int
  nc : Int
  nsteps : Int
  iseed : Int
  nsubsteps : Int
  tau : R
  accept : R
deriving Repr, DecidableEq

/-- Defaults of check_determinant: `na=nb=nc=1`, `nsteps=5`, `iseed=11`,
`nsubsteps=1` (lines 329-335), `tau=2.0` (line 427), `accept=0.5`
(line 432). -/
def checkDetDefaults : CheckDetOptions :=
  ⟨1, 1, 1, 5, 11, 1, 2, 1/2⟩

/-- The option set of the batched driver with the values its `main` assigns
before option parsing (miniqmc_sync_move_noref.cpp lines 193-212 and 423). -/
structure SyncMoveOptions where
  na : Int
  nb : Int
  nc : Int
  nsteps : Int
  iseed : Int
  nmovers : Int
  nsubsteps : Int
  Rmax : R
  accept : R
  tau : R
deriving Repr, DecidableEq

/-- Defaults of the batched driver: `na=nb=nc=1`, `nsteps=5`, `iseed=11`,
`nmovers=1`, `nsubsteps=1`, `Rmax=1.7`, `accept=0.5` (lines 193-206) and
`tau=2.0` (line 423). -/
def syncMoveDefaults : SyncMoveOptions :=
  ⟨1, 1, 1, 5, 11, 1, 1, 17/10, 1/2, 2⟩

/-- The Gaussian displacement scale both drivers compute from the diffusion
time step: `sqrttau = std::sqrt(tau)` (check_determinant.cpp line 431,
miniqmc_sync_move_noref.cpp line 424). -/
noncomputable def sqrttauOf (tau : R) : ℝ := Real.sqrt (tau : ℝ)


/-- N consecutive proposals for the same electron in the check driver: each
list entry is one proposal's `(ur, dr)` pair, fed through consecutive
electron steps; the decisions are collected in order. -/
def checkDetRepeat (oracle : Pos → List R) (valid : Pos → Bool) (accept : R) :
    List (List R × Pos) → Nat → CDState → CDState × List Decision
  | [], _, s => (s, [])
  | p :: rest, iel, s =>
    let st := checkDetElectronStep oracle valid accept p.1 p.2 iel s
    let rst := checkDetRepeat oracle valid accept rest iel st.1
    (rst.1, st.2 :: rst.2)

/-! Shared concrete fixtures for counterexamples and witnesses. -/

/-- A one-orbital oracle: every position evaluates to the single row `[1]`. -/
def exOracle : Pos → List R := fun _ => [1]

/-- A geometry in which every trial position is valid. -/
def allValid : Pos → Bool := fun _ => true

/-- A geometry accepting exactly the positions with nonnegative `x`. -/
def posValid : Pos → Bool := fun p => decide (0 ≤ p.x)

/-- A 1×1 determinant state with matrix and inverse `[[1]]`. -/
def exDet1 : DiracDeterminant := ⟨[[1]], [[1]], none⟩

/-- A one-electron walker at the origin. -/
def exW : Walker := ⟨⟨[⟨0, 0, 0⟩], -1, Pos.zero⟩, exDet1⟩

/-- A one-electron walker at `x = -1` (its zero-displacement trial move fails
`posValid`). -/
def exWneg : Walker := ⟨⟨[⟨-1, 0, 0⟩], -1, Pos.zero⟩, exDet1⟩

/-- A generator whose first two draws are `1/4` and `3/4`, all later draws
`0`. -/
def exG : RNG :=
  ⟨fun i => if i = 0 then 1/4 else if i = 1 then 3/4 else 0, 0⟩

/-- A generator that always draws `0`. -/
def zeroG : RNG := ⟨fun _ => 0, 0⟩

/-- A one-electron check-driver state at the origin. -/
def exS : CDState := ⟨⟨[⟨0, 0, 0⟩], -1, Pos.zero⟩, exDet1, 0⟩

/-- A two-orbital oracle: every position evaluates to the row `[1, 1]`. -/
def exOracle2 : Pos → List R := fun _ => [1, 1]

/-- A 2×2 identity determinant state. -/
def exDet2 : DiracDeterminant := ⟨[[1, 0], [0, 1]], [[1, 0], [0, 1]], none⟩

/-- A two-electron walker. -/
def wk2 : Walker := ⟨⟨[⟨0, 0, 0⟩, ⟨1, 0, 0⟩], -1, Pos.zero⟩, exDet2⟩

theorem mapIdxFrom_length (f : Nat → α → β) (n : Nat) (l : List α) :
    (mapIdxFrom f n l).length = l.length := by
  induction l generalizing n with
  | nil => rfl
  | cons a as ih => simp [mapIdxFrom, ih]

theorem eachIdx_length (f : Nat → α → β) (l : List α) :
    (eachIdx f l).length = l.length := mapIdxFrom_length f 0 l

theorem mapIdxFrom_getD (f : Nat → α → β) (n : Nat) (l : List α) (i : Nat)
    (d : β) (d' : α) (h : i < l.length) :
    (mapIdxFrom f n l).getD i d = f (n + i) (l.getD i d') := by
  induction l generalizing n i with
  | nil => exact absurd h (by simp)
  | cons a as ih =>
    cases i with
    | zero => rfl
    | succ j =>
      have hj : j < as.length := by simpa using h
      show (mapIdxFrom f (n + 1) as).getD j d = _
      rw [ih (n + 1) j hj]
      congr 1
      omega

theorem eachIdx_getD (f : Nat → α → β) (l : List α) (i : Nat) (d : β)
    (d' : α) (h : i < l.length) :
    (eachIdx f l).getD i d = f i (l.getD i d') := by
  simpa using mapIdxFrom_getD f 0 l i d d' h

theorem getD_map_lt (f : α → β) (l : List α) (i : Nat) (d : β) (d' : α)
    (h : i < l.length) : (l.map f).getD i d = f (l.getD i d') := by
  rw [List.getD_eq_getElem (l.map f) d (by simpa using h),
    List.getD_eq_getElem l d' h, List.getElem_map]

theorem getD_replicate_lt (a d : α) {n i : Nat} (h : i < n) :
    (List.replicate n a).getD i d = a := by
  rw [List.getD_eq_getElem _ _ (by simpa using h)]
  exact List.getElem_replicate a _

/-- The `k`-th of `n` draws handed out by `generate` is the stream value at
offset `k` from the cursor. -/
theorem RNG.generate_getD (g : RNG) (n k : Nat) (d : R) (h : k < n) :
    (g.generate n).1.getD k d = g.stream (g.pos + k) := by
  unfold RNG.generate
  rw [getD_map_lt _ _ _ _ 0 (by simpa using h),
    List.getD_eq_getElem _ _ (by simpa using h)]
  simp

/-! Frame facts about the modelled collaborators: which parts of the state
each operation can touch. -/

theorem makeMoveAndCheck_R (valid : Pos → Bool) (P : ParticleSet) (iel : Nat)
    (dr : Pos) : (P.makeMoveAndCheck valid iel dr).1.R = P.R := by
  simp only [ParticleSet.makeMoveAndCheck]
  split <;> rfl

theorem makeMoveAndCheck_of_invalid (valid : Pos → Bool) (P : ParticleSet)
    (iel : Nat) (dr : Pos) (h : (P.makeMoveAndCheck valid iel dr).2 = false) :
    P.makeMoveAndCheck valid iel dr = (P, false) := by
  simp only [ParticleSet.makeMoveAndCheck] at h ⊢
  by_cases hb : valid ((P.R.getD iel Pos.zero).add dr) = true
  · rw [if_pos hb] at h
    simp at h
  · rw [if_neg hb]

theorem rejectMove_R (P : ParticleSet) (iel : Nat) :
    (P.rejectMove iel).R = P.R := rfl

theorem ratio_psiM (d : DiracDeterminant) (oracle : Pos → List R) (iel : Nat)
    (p : Pos) : (d.ratio oracle iel p).1.psiM = d.psiM := rfl

theorem ratio_psiMinv (d : DiracDeterminant) (oracle : Pos → List R)
    (iel : Nat) (p : Pos) : (d.ratio oracle iel p).1.psiMinv = d.psiMinv :=
  rfl

theorem discardMove_psiM (d : DiracDeterminant) :
    d.discardMove.psiM = d.psiM := rfl

theorem discardMove_psiMinv (d : DiracDeterminant) :
    d.discardMove.psiMinv = d.psiMinv := rfl

/-! Pointwise computation lemmas for the batched electron step. -/

theorem bstepMoved_length (valid : Pos → Bool) (sqrttau : R) (iel : Nat)
    (g : RNG) (ws : List Walker) :
    (bstepMoved valid sqrttau iel g ws).length = ws.length :=
  eachIdx_length _ _

theorem bstepMoved_getD (valid : Pos → Bool) (sqrttau : R) (iel : Nat)
    (g : RNG) (ws : List Walker) (iw : Nat) (h : iw < ws.length) :
    (bstepMoved valid sqrttau iel g ws).getD iw default =
      (let wk := ws.getD iw default
       let mv := wk.els.makeMoveAndCheck valid iel
           (Pos.smul sqrttau ((bstepDelta g ws.length).getD iw Pos.zero))
       ({ wk with els := mv.1 }, mv.2)) := by
  unfold bstepMoved
  exact eachIdx_getD _ _ iw default default h

theorem bstepIsValid_length (valid : Pos → Bool) (sqrttau : R) (iel : Nat)
    (g : RNG) (ws : List Walker) :
    (bstepIsValid valid sqrttau iel g ws).length = ws.length := by
  unfold bstepIsValid
  rw [List.length_map, bstepMoved_length]

theorem bstepIsValid_getD (valid : Pos → Bool) (sqrttau : R) (iel : Nat)
    (g : RNG) (ws : List Walker) (iw : Nat) (h : iw < ws.length) :
    (bstepIsValid valid sqrttau iel g ws).getD iw false =
      ((bstepMoved valid sqrttau iel g ws).getD iw default).2 := by
  unfold bstepIsValid
  exact getD_map_lt _ _ iw false default (by rw [bstepMoved_length]; exact h)

theorem batchedElectronStep_decs_getD (oracle : Pos → List R)
    (valid : Pos → Bool) (accept sqrttau : R) (iel : Nat) (g : RNG)
    (ws : List Walker) (iw : Nat) (h : iw < ws.length) :
    (batchedElectronStep oracle valid accept sqrttau iel g ws).decs.getD iw
        none =
      (if (bstepIsValid valid sqrttau iel g ws).getD iw false then
        some (decide ((bstepUr g ws.length).getD
          (countTrueBefore (bstepIsValid valid sqrttau iel g ws) iw) 0
          < accept))
      else none) := by
  simp only [batchedElectronStep]
  rw [eachIdx_getD _ _ iw none default (by rw [bstepMoved_length]; exact h),
    bstepIsValid_getD valid sqrttau iel g ws iw h]

theorem batchedElectronStep_walkers_getD (oracle : Pos → List R)
    (valid : Pos → Bool) (accept sqrttau : R) (iel : Nat) (g : RNG)
    (ws : List Walker) (iw : Nat) (h : iw < ws.length) :
    (batchedElectronStep oracle valid accept sqrttau iel g ws).walkers.getD
        iw default
      = bstepUpdateWalker oracle accept (bstepUr g ws.length)
          (countTrueBefore (bstepIsValid valid sqrttau iel g ws) iw) iel
          ((bstepMoved valid sqrttau iel g ws).getD iw default) := by
  simp only [batchedElectronStep]
  rw [eachIdx_getD _ _ iw default default
    (by rw [bstepMoved_length]; exact h)]

theorem bstepUpdateWalker_of_invalid (oracle : Pos → List R) (accept : R)
    (ur : List R) (fi iel : Nat) (p : Walker × Bool) (h : p.2 = false) :
    bstepUpdateWalker oracle accept ur fi iel p = p.1 := by
  unfold bstepUpdateWalker
  rw [h]
  rfl

theorem bstepUpdateWalker_frame (oracle : Pos → List R) (accept : R)
    (ur : List R) (fi iel : Nat) (p : Walker × Bool)
    (h : ¬(ur.getD fi 0 < accept)) :
    (bstepUpdateWalker oracle accept ur fi iel p).els.R = p.1.els.R
    ∧ (bstepUpdateWalker oracle accept ur fi iel p).wf.psiM = p.1.wf.psiM
    ∧ (bstepUpdateWalker oracle accept ur fi iel p).wf.psiMinv
      = p.1.wf.psiMinv := by
  unfold bstepUpdateWalker
  by_cases h2 : p.2 = true
  · rw [if_pos h2, if_neg h]
    exact ⟨rejectMove_R p.1.els iel,
      (discardMove_psiM _).trans (ratio_psiM p.1.wf oracle iel _),
      (discardMove_psiMinv _).trans (ratio_psiMinv p.1.wf oracle iel _)⟩
  · rw [if_neg h2]
    exact ⟨rfl, rfl, rfl⟩

theorem batchedElectronStep_decs_length (oracle : Pos → List R)
    (valid : Pos → Bool) (accept sqrttau : R) (iel : Nat) (g : RNG)
    (ws : List Walker) :
    (batchedElectronStep oracle valid accept sqrttau iel g ws).decs.length
      = ws.length := by
  simp only [batchedElectronStep]
  rw [eachIdx_length, bstepMoved_length]

theorem countTrueBefore_le (bs : List Bool) (w : Nat) :
    countTrueBefore bs w ≤ w := by
  unfold countTrueBefore
  calc ((bs.take w).filter (fun b => b)).length ≤ (bs.take w).length :=
        List.length_filter_le _ _
    _ ≤ w := by simp

/-- For a trial move that passed the geometric check, the check driver's
decision is exactly the outcome of the `ur[iel] > accept` test (line 470). -/
theorem checkDetElectronStep_of_valid (oracle : Pos → List R)
    (valid : Pos → Bool) (accept : R) (ur : List R) (dr : Pos) (iel : Nat)
    (s : CDState) (h : (s.els.makeMoveAndCheck valid iel dr).2 = true) :
    (checkDetElectronStep oracle valid accept ur dr iel s).2
      = (if accept < ur.getD iel 0 then Decision.accepted
         else Decision.rejected) := by
  simp only [checkDetElectronStep, h]
  rw [if_neg (fun hh => Bool.noConfusion hh)]
  by_cases hc : accept < ur.getD iel 0
  · rw [if_pos hc, if_pos hc]
  · rw [if_neg hc, if_neg hc]

/-- For a trial move that failed the geometric check, the check driver's
electron step is a no-op with decision `invalid` (line 459: `continue`). -/
theorem checkDetElectronStep_of_invalid (oracle : Pos → List R)
    (valid : Pos → Bool) (accept : R) (ur : List R) (dr : Pos) (iel : Nat)
    (s : CDState) (h : (s.els.makeMoveAndCheck valid iel dr).2 = false) :
    checkDetElectronStep oracle valid accept ur dr iel s
      = (s, Decision.invalid) := by
  have hm := makeMoveAndCheck_of_invalid valid s.els iel dr h
  simp only [checkDetElectronStep, hm]
  rfl

/-- C1 (counterexample): in the check_determinant driver a geometrically
valid trial move with uniform draw `7/10` and threshold `1/2` is ACCEPTED,
although the draw is not less than the threshold — the driver accepts when
the draw is greater than the threshold (line 470: `if (ur[iel] > accept)`),
refuting the claimed "accept iff draw < threshold" for this driver. -/
theorem C1_counterexample :
    (checkDetElectronStep exOracle allValid (1/2) [7/10] Pos.zero 0 exS).2
        = Decision.accepted
      ∧ ¬((7/10 : R) < 1/2) :=
  ⟨by with_unfolding_all decide, by with_unfolding_all decide⟩

/-- C1 (amended): for a trial move that passed the geometric check, the
check driver accepts iff the electron's uniform draw is GREATER than the
accept threshold (check_determinant.cpp line 470), whereas the batched
driver accepts iff the uniform draw at the walker's position in the filtered
valid list is LESS than the threshold (miniqmc_sync_move_noref.cpp lines
559-563). -/
theorem C1_accept_test (oracle : Pos → List R) (valid : Pos → Bool)
    (accept sqrttau : R) (ur : List R) (dr : Pos) (iel : Nat) (s : CDState)
    (g : RNG) (ws : List Walker) (iw : Nat) (b : Bool) :
    ((s.els.makeMoveAndCheck valid iel dr).2 = true →
      ((checkDetElectronStep oracle valid accept ur dr iel s).2
          = Decision.accepted ↔ accept < ur.getD iel 0))
    ∧ ((batchedElectronStep oracle valid accept sqrttau iel g ws).decs.getD
          iw none = some b →
        (b = true ↔
          (bstepUr g ws.length).getD
            (countTrueBefore (bstepIsValid valid sqrttau iel g ws) iw) 0
            < accept)) := by
  constructor
  · intro hv
    rw [checkDetElectronStep_of_valid oracle valid accept ur dr iel s hv]
    split <;> simp_all
  · intro hd
    have hlen : iw < ws.length := by
      by_contra hlen
      rw [List.getD_eq_default] at hd
      · exact Option.noConfusion hd
      · rw [batchedElectronStep_decs_length]
        omega
    rw [batchedElectronStep_decs_getD oracle valid accept sqrttau iel g ws
      iw hlen] at hd
    by_cases hval :
        (bstepIsValid valid sqrttau iel g ws).getD iw false = true
    · rw [if_pos hval] at hd
      injection hd with hb
      rw [← hb]
      simp
    · rw [if_neg hval] at hd
      exact Option.noConfusion hd

/-- Witness for C1: the check driver accepts the concrete valid move with
draw `7/10 > 1/2`, and in the concrete two-walker batch walker 1's positive
decision agrees with its filtered-list draw being below the threshold. -/
theorem C1_accept_test_witness :
    ((checkDetElectronStep exOracle allValid (1/2) [7/10] Pos.zero 0
        exS).2 = Decision.accepted)
    ∧ (true = true ↔
        (bstepUr exG 2).getD
          (countTrueBefore (bstepIsValid posValid 1 0 exG [exWneg, exW]) 1)
          0 < (1/2 : R)) :=
  ⟨((C1_accept_test exOracle allValid (1/2) 0 [7/10] Pos.zero 0 exS zeroG
      [] 0 true).1 (by with_unfolding_all decide)).mpr (by with_unfolding_all decide),
    (C1_accept_test exOracle posValid (1/2) 1 [] Pos.zero 0 exS exG
      [exWneg, exW] 1 true).2 (by with_unfolding_all decide)⟩

/-- C2 (counterexample): walker 1 is bit-identical in the two batches and
the generator is the same, yet its accept decision flips — rejected when
walker 0's trial is valid (walker 1 then reads draw `3/4`), accepted when
walker 0's trial is invalid (walker 1 then reads draw `1/4`).  The uniform
draw a walker receives therefore depends on which other walkers passed the
validity check, refuting batch-composition independence. -/
theorem C2_counterexample :
    [exW, exW].getD 1 default = [exWneg, exW].getD 1 default
    ∧ (batchedElectronStep exOracle posValid (1/2) 1 0 exG
        [exW, exW]).decs.getD 1 none = some false
    ∧ (batchedElectronStep exOracle posValid (1/2) 1 0 exG
        [exWneg, exW]).decs.getD 1 none = some true :=
  ⟨rfl, by with_unfolding_all decide, by with_unfolding_all decide⟩

/-- C2 (amended): every accept draw of the batch comes from walker 0's
generator, and the draw a valid walker receives sits at offset
`countTrueBefore isValid iw` — its position in the filtered valid list — so
a walker's accept decision is a function of walker 0's stream and of how
many earlier walkers passed the validity check, not of the walker's own
stream alone; batch equivalence with single-walker runs does not hold. -/
theorem C2_draws_from_walker0 (oracle : Pos → List R) (valid : Pos → Bool)
    (accept sqrttau : R) (iel : Nat) (g : RNG) (ws : List Walker) (iw : Nat)
    (b : Bool)
    (hd : (batchedElectronStep oracle valid accept sqrttau iel g ws).decs.getD
        iw none = some b) :
    b = decide (g.stream (g.pos +
        countTrueBefore (bstepIsValid valid sqrttau iel g ws) iw)
      < accept) := by
  have hlen : iw < ws.length := by
    by_contra hlen
    rw [List.getD_eq_default] at hd
    · exact Option.noConfusion hd
    · rw [batchedElectronStep_decs_length]
      omega
  rw [batchedElectronStep_decs_getD oracle valid accept sqrttau iel g ws
    iw hlen] at hd
  by_cases hval : (bstepIsValid valid sqrttau iel g ws).getD iw false = true
  · rw [if_pos hval] at hd
    injection hd with hb
    rw [← hb, bstepUr,
      RNG.generate_getD g ws.length _ 0
        (lt_of_le_of_lt (countTrueBefore_le _ iw) hlen)]
  · rw [if_neg hval] at hd
    exact Option.noConfusion hd

/-- Witness for C2: walker 1 of the concrete batch behind `C2_counterexample`
receives the draw at stream offset 0 — walker 0's first draw — because
walker 0 failed the check. -/
theorem C2_draws_from_walker0_witness :
    true = decide (exG.stream (exG.pos +
        countTrueBefore (bstepIsValid posValid 1 0 exG [exWneg, exW]) 1)
      < (1/2 : R)) :=
  C2_draws_from_walker0 exOracle posValid (1/2) 1 0 exG [exWneg, exW] 1
    true (by with_unfolding_all decide)

theorem batchedElectronStep_evs (oracle : Pos → List R) (valid : Pos → Bool)
    (accept sqrttau : R) (iel : Nat) (g : RNG) (ws : List Walker) :
    (batchedElectronStep oracle valid accept sqrttau iel g ws).evs
      = BEv.setActive iel ::
        ((List.range ws.length).map (fun w => BEv.evalGrad iel w)
          ++ ((List.range ws.length).filter (fun w =>
              (bstepIsValid valid sqrttau iel g ws).getD w false)).map
            (fun w => BEv.ratioGrad iel w)
          ++ ((List.range ws.length).filter (fun w =>
              (bstepIsValid valid sqrttau iel g ws).getD w false)).map
            (fun w =>
              if (bstepUr g ws.length).getD
                  (countTrueBefore (bstepIsValid valid sqrttau iel g ws) w) 0
                  < accept then
                BEv.commit iel w
              else BEv.restore iel w)) := rfl

/-- Classification of the events one batched electron step can emit: the
`setActive` marker, one `evalGrad` per walker, and `ratioGrad` plus either
`commit` or `restore` for exactly the walkers that passed the check. -/
theorem batchedElectronStep_evs_mem (oracle : Pos → List R)
    (valid : Pos → Bool) (accept sqrttau : R) (iel : Nat) (g : RNG)
    (ws : List Walker) (e : BEv)
    (he : e ∈ (batchedElectronStep oracle valid accept sqrttau iel g ws).evs) :
    e = BEv.setActive iel
    ∨ (∃ w, w < ws.length ∧ e = BEv.evalGrad iel w)
    ∨ (∃ w, w < ws.length
        ∧ (bstepIsValid valid sqrttau iel g ws).getD w false = true
        ∧ (e = BEv.ratioGrad iel w ∨ e = BEv.commit iel w
            ∨ e = BEv.restore iel w)) := by
  rw [batchedElectronStep_evs] at he
  rcases List.mem_cons.mp he with he | he
  · exact Or.inl he
  rcases List.mem_append.mp he with he | he
  rcases List.mem_append.mp he with he | he
  · rcases List.mem_map.mp he with ⟨w, hw, heq⟩
    exact Or.inr (Or.inl ⟨w, List.mem_range.mp hw, heq.symm⟩)
  · rcases List.mem_map.mp he with ⟨w, hw, heq⟩
    rcases List.mem_filter.mp hw with ⟨hw1, hw2⟩
    exact Or.inr (Or.inr ⟨w, List.mem_range.mp hw1, hw2, Or.inl heq.symm⟩)
  · rcases List.mem_map.mp he with ⟨w, hw, heq⟩
    rcases List.mem_filter.mp hw with ⟨hw1, hw2⟩
    refine Or.inr (Or.inr ⟨w, List.mem_range.mp hw1, hw2, ?_⟩)
    split at heq
    · exact Or.inr (Or.inl heq.symm)
    · exact Or.inr (Or.inr heq.symm)

/-- A walker that passed the check does have its `ratioGrad` event. -/
theorem batchedElectronStep_ratioGrad_mem (oracle : Pos → List R)
    (valid : Pos → Bool) (accept sqrttau : R) (iel : Nat) (g : RNG)
    (ws : List Walker) (iw : Nat) (hw : iw < ws.length)
    (hv : (bstepIsValid valid sqrttau iel g ws).getD iw false = true) :
    BEv.ratioGrad iel iw
      ∈ (batchedElectronStep oracle valid accept sqrttau iel g ws).evs := by
  rw [batchedElectronStep_evs]
  refine List.mem_cons_of_mem _
    (List.mem_append_left _ (List.mem_append_right _ ?_))
  exact List.mem_map.mpr
    ⟨iw, List.mem_filter.mpr ⟨List.mem_range.mpr hw, hv⟩, rfl⟩

/-- C3: a proposal that fails the geometric check is a cheap rejection.  In
the check driver the electron step leaves the whole state unchanged and
performs no accept test (decision `invalid`, via `continue` at line 459 of
check_determinant.cpp); in the batched driver the walker is left untouched,
its decision is `none` (it is excluded from the `isAccepted` loop), and the
step's trace holds no `ratioGrad`, `commit` or `restore` event for it
(miniqmc_sync_move_noref.cpp lines 503-575: it never enters the valid
lists). -/
theorem C3_invalid_cheap_rejection (oracle : Pos → List R)
    (valid : Pos → Bool) (accept sqrttau : R) (ur : List R) (dr : Pos)
    (iel : Nat) (s : CDState) (g : RNG) (ws : List Walker) (iw : Nat) :
    ((s.els.makeMoveAndCheck valid iel dr).2 = false →
      checkDetElectronStep oracle valid accept ur dr iel s
        = (s, Decision.invalid))
    ∧ (iw < ws.length →
        (bstepIsValid valid sqrttau iel g ws).getD iw false = false →
        (batchedElectronStep oracle valid accept sqrttau iel g
            ws).walkers.getD iw default = ws.getD iw default
        ∧ (batchedElectronStep oracle valid accept sqrttau iel g
            ws).decs.getD iw none = none
        ∧ (∀ e ∈ (batchedElectronStep oracle valid accept sqrttau iel g
            ws).evs, e ≠ BEv.ratioGrad iel iw ∧ e ≠ BEv.commit iel iw
            ∧ e ≠ BEv.restore iel iw)) := by
  constructor
  · exact checkDetElectronStep_of_invalid oracle valid accept ur dr iel s
  · intro hw hv
    have hv2 : ((bstepMoved valid sqrttau iel g ws).getD iw default).2
        = false := by
      rw [← bstepIsValid_getD valid sqrttau iel g ws iw hw]
      exact hv
    have h2 : ((ws.getD iw default).els.makeMoveAndCheck valid iel
        (Pos.smul sqrttau ((bstepDelta g ws.length).getD iw
          Pos.zero))).2 = false := by
      rw [bstepMoved_getD valid sqrttau iel g ws iw hw] at hv2
      exact hv2
    have hmv : (bstepMoved valid sqrttau iel g ws).getD iw default
        = (ws.getD iw default, false) := by
      rw [bstepMoved_getD valid sqrttau iel g ws iw hw]
      show ({ ws.getD iw default with
          els := ((ws.getD iw default).els.makeMoveAndCheck valid iel
            (Pos.smul sqrttau ((bstepDelta g ws.length).getD iw
              Pos.zero))).1 },
        ((ws.getD iw default).els.makeMoveAndCheck valid iel
          (Pos.smul sqrttau ((bstepDelta g ws.length).getD iw
            Pos.zero))).2) = _
      rw [makeMoveAndCheck_of_invalid _ _ _ _ h2]
    refine ⟨?_, ?_, ?_⟩
    · rw [batchedElectronStep_walkers_getD oracle valid accept sqrttau iel
        g ws iw hw, hmv]
      exact bstepUpdateWalker_of_invalid oracle accept _ _ iel _ rfl
    · rw [batchedElectronStep_decs_getD oracle valid accept sqrttau iel g
        ws iw hw, if_neg (by rw [hv]; exact Bool.false_ne_true)]
    · intro e he
      rcases batchedElectronStep_evs_mem oracle valid accept sqrttau iel g
        ws e he with h | ⟨w, _, h⟩ | ⟨w, _, hval, h | h | h⟩ <;>
        subst h <;>
        refine ⟨?_, ?_, ?_⟩ <;>
        intro hh <;>
        first
        | exact BEv.noConfusion hh
        | (injection hh with h1 h2
           subst h2
           rw [hval] at hv
           exact Bool.noConfusion hv)

/-- Witness for C3: in the concrete two-walker batch of `C2_counterexample`
walker 0 fails the check and is untouched, undecided and absent from the
ratio/commit/restore events; the check driver likewise leaves the concrete
state unchanged on an invalid move. -/
theorem C3_invalid_cheap_rejection_witness :
    (checkDetElectronStep exOracle posValid (1/2) [7/10] Pos.zero 0
        ⟨⟨[⟨-1, 0, 0⟩], -1, Pos.zero⟩, exDet1, 0⟩
      = (⟨⟨[⟨-1, 0, 0⟩], -1, Pos.zero⟩, exDet1, 0⟩, Decision.invalid))
    ∧ (batchedElectronStep exOracle posValid (1/2) 1 0 exG
        [exWneg, exW]).decs.getD 0 none = none :=
  ⟨(C3_invalid_cheap_rejection exOracle posValid (1/2) 1 [7/10] Pos.zero 0
      ⟨⟨[⟨-1, 0, 0⟩], -1, Pos.zero⟩, exDet1, 0⟩ zeroG [] 0).1
      (by with_unfolding_all decide),
    ((C3_invalid_cheap_rejection exOracle posValid (1/2) 1 [] Pos.zero 0
      exS exG [exWneg, exW] 0).2 (by with_unfolding_all decide)
      (by with_unfolding_all decide)).2.1⟩

/-- Full outcome of a check-driver electron step on a valid trial move. -/
theorem checkDetElectronStep_eq_of_valid (oracle : Pos → List R)
    (valid : Pos → Bool) (accept : R) (ur : List R) (dr : Pos) (iel : Nat)
    (s : CDState) (hv : (s.els.makeMoveAndCheck valid iel dr).2 = true) :
    checkDetElectronStep oracle valid accept ur dr iel s
      = (if accept < ur.getD iel 0 then
          (⟨(s.els.makeMoveAndCheck valid iel dr).1.acceptMove iel,
            (s.det.ratio oracle iel
              (s.els.makeMoveAndCheck valid iel dr).1.activePos).1.acceptMove
              iel, s.my_accepted + 1⟩, Decision.accepted)
        else
          (⟨(s.els.makeMoveAndCheck valid iel dr).1.rejectMove iel,
            (s.det.ratio oracle iel
              (s.els.makeMoveAndCheck valid iel dr).1.activePos).1,
            s.my_accepted⟩, Decision.rejected)) := by
  simp only [checkDetElectronStep, hv]
  rw [if_neg (fun hh => Bool.noConfusion hh)]

/-- A check-driver electron step that does not accept leaves the committed
positions, the Slater matrix and the maintained inverse unchanged. -/
theorem checkDetElectronStep_frame (oracle : Pos → List R)
    (valid : Pos → Bool) (accept : R) (ur : List R) (dr : Pos) (iel : Nat)
    (s : CDState)
    (h : (checkDetElectronStep oracle valid accept ur dr iel s).2
      ≠ Decision.accepted) :
    (checkDetElectronStep oracle valid accept ur dr iel s).1.els.R = s.els.R
    ∧ (checkDetElectronStep oracle valid accept ur dr iel s).1.det.psiM
      = s.det.psiM
    ∧ (checkDetElectronStep oracle valid accept ur dr iel s).1.det.psiMinv
      = s.det.psiMinv := by
  by_cases hv : (s.els.makeMoveAndCheck valid iel dr).2 = true
  · by_cases hc : accept < ur.getD iel 0
    · exfalso
      apply h
      rw [checkDetElectronStep_of_valid oracle valid accept ur dr iel s hv,
        if_pos hc]
    · rw [checkDetElectronStep_eq_of_valid oracle valid accept ur dr iel s
        hv, if_neg hc]
      exact ⟨by rw [rejectMove_R, makeMoveAndCheck_R],
        ratio_psiM s.det oracle iel _, ratio_psiMinv s.det oracle iel _⟩
  · have hb : (s.els.makeMoveAndCheck valid iel dr).2 = false := by
      revert hv
      cases (s.els.makeMoveAndCheck valid iel dr).2 <;> simp
    rw [checkDetElectronStep_of_invalid oracle valid accept ur dr iel s hb]
    exact ⟨rfl, rfl, rfl⟩

/-- Iterating `checkDetElectronStep` with only non-accepted outcomes leaves
positions, Slater matrix and inverse unchanged. -/
theorem checkDetRepeat_frame (oracle : Pos → List R) (valid : Pos → Bool)
    (accept : R) (ps : List (List R × Pos)) (iel : Nat) (s : CDState)
    (h : ∀ d ∈ (checkDetRepeat oracle valid accept ps iel s).2,
      d ≠ Decision.accepted) :
    (checkDetRepeat oracle valid accept ps iel s).1.els.R = s.els.R
    ∧ (checkDetRepeat oracle valid accept ps iel s).1.det.psiM = s.det.psiM
    ∧ (checkDetRepeat oracle valid accept ps iel s).1.det.psiMinv
      = s.det.psiMinv := by
  induction ps generalizing s with
  | nil => exact ⟨rfl, rfl, rfl⟩
  | cons p rest ih =>
    simp only [checkDetRepeat] at h ⊢
    have h1 : (checkDetElectronStep oracle valid accept p.1 p.2 iel s).2
        ≠ Decision.accepted :=
      h _ (List.mem_cons_self _ _)
    have hstep := checkDetElectronStep_frame oracle valid accept p.1 p.2
      iel s h1
    have hrest := ih
      ((checkDetElectronStep oracle valid accept p.1 p.2 iel s).1)
      (fun d hd => h d (List.mem_cons_of_mem _ hd))
    exact ⟨hrest.1.trans hstep.1, hrest.2.1.trans hstep.2.1,
      hrest.2.2.trans hstep.2.2⟩

/-- A batched walker whose decision is not `some true` keeps its committed
positions, Slater matrix and inverse. -/
theorem batchedElectronStep_frame (oracle : Pos → List R)
    (valid : Pos → Bool) (accept sqrttau : R) (iel : Nat) (g : RNG)
    (ws : List Walker) (iw : Nat) (hw : iw < ws.length)
    (h : (batchedElectronStep oracle valid accept sqrttau iel g ws).decs.getD
      iw none ≠ some true) :
    ((batchedElectronStep oracle valid accept sqrttau iel g ws).walkers.getD
      iw default).els.R = (ws.getD iw default).els.R
    ∧ ((batchedElectronStep oracle valid accept sqrttau iel g
        ws).walkers.getD iw default).wf.psiM = (ws.getD iw default).wf.psiM
    ∧ ((batchedElectronStep oracle valid accept sqrttau iel g
        ws).walkers.getD iw default).wf.psiMinv
      = (ws.getD iw default).wf.psiMinv := by
  have hp1R : ((bstepMoved valid sqrttau iel g ws).getD iw default).1.els.R
      = (ws.getD iw default).els.R := by
    rw [bstepMoved_getD valid sqrttau iel g ws iw hw]
    exact makeMoveAndCheck_R valid (ws.getD iw default).els iel _
  have hp1W : ((bstepMoved valid sqrttau iel g ws).getD iw default).1.wf
      = (ws.getD iw default).wf := by
    rw [bstepMoved_getD valid sqrttau iel g ws iw hw]
  rw [batchedElectronStep_walkers_getD oracle valid accept sqrttau iel g ws
    iw hw]
  rw [batchedElectronStep_decs_getD oracle valid accept sqrttau iel g ws iw
    hw] at h
  by_cases hval : (bstepIsValid valid sqrttau iel g ws).getD iw false = true
  · rw [if_pos hval] at h
    by_cases hc : (bstepUr g ws.length).getD
        (countTrueBefore (bstepIsValid valid sqrttau iel g ws) iw) 0
        < accept
    · exact absurd (congrArg some (decide_eq_true hc)) h
    · have hf := bstepUpdateWalker_frame oracle accept (bstepUr g ws.length)
        (countTrueBefore (bstepIsValid valid sqrttau iel g ws) iw) iel
        ((bstepMoved valid sqrttau iel g ws).getD iw default) hc
      exact ⟨hf.1.trans hp1R, hf.2.1.trans (by rw [hp1W]),
        hf.2.2.trans (by rw [hp1W])⟩
  · have hval2 : ((bstepMoved valid sqrttau iel g ws).getD iw default).2
        = false := by
      rw [← bstepIsValid_getD valid sqrttau iel g ws iw hw]
      revert hval
      cases (bstepIsValid valid sqrttau iel g ws).getD iw false <;> simp
    rw [bstepUpdateWalker_of_invalid oracle accept _ _ iel _ hval2]
    exact ⟨hp1R, by rw [hp1W], by rw [hp1W]⟩

/-- C4: a rejected (or geometrically invalid) proposal mutates neither the
electron's committed position nor the Slater matrix nor its maintained
inverse — in the check driver this holds for any number of consecutive
non-accepted proposals for the same electron, and in the batched driver for
every walker whose decision is not an acceptance. -/
theorem C4_reject_frame (oracle : Pos → List R) (valid : Pos → Bool)
    (accept sqrttau : R) (ps : List (List R × Pos)) (iel : Nat) (s : CDState)
    (g : RNG) (ws : List Walker) (iw : Nat) :
    ((∀ d ∈ (checkDetRepeat oracle valid accept ps iel s).2,
        d ≠ Decision.accepted) →
      (checkDetRepeat oracle valid accept ps iel s).1.els.R = s.els.R
      ∧ (checkDetRepeat oracle valid accept ps iel s).1.det.psiM
        = s.det.psiM
      ∧ (checkDetRepeat oracle valid accept ps iel s).1.det.psiMinv
        = s.det.psiMinv)
    ∧ (iw < ws.length →
      (batchedElectronStep oracle valid accept sqrttau iel g ws).decs.getD
        iw none ≠ some true →
      ((batchedElectronStep oracle valid accept sqrttau iel g
        ws).walkers.getD iw default).els.R = (ws.getD iw default).els.R
      ∧ ((batchedElectronStep oracle valid accept sqrttau iel g
          ws).walkers.getD iw default).wf.psiM
        = (ws.getD iw default).wf.psiM
      ∧ ((batchedElectronStep oracle valid accept sqrttau iel g
          ws).walkers.getD iw default).wf.psiMinv
        = (ws.getD iw default).wf.psiMinv) :=
  ⟨checkDetRepeat_frame oracle valid accept ps iel s,
    fun hw h =>
      batchedElectronStep_frame oracle valid accept sqrttau iel g ws iw
        hw h⟩

/-- Witness for C4: two consecutive rejected proposals (draw `0`, threshold
`1/2`) leave the concrete one-electron state unchanged, and the rejected
walker 1 of the concrete batch keeps position, matrix and inverse. -/
theorem C4_reject_frame_witness :
    ((checkDetRepeat exOracle allValid (1/2)
        [([0], Pos.zero), ([0], Pos.zero)] 0 exS).1.els.R = exS.els.R
      ∧ (checkDetRepeat exOracle allValid (1/2)
          [([0], Pos.zero), ([0], Pos.zero)] 0 exS).1.det.psiM
        = exS.det.psiM
      ∧ (checkDetRepeat exOracle allValid (1/2)
          [([0], Pos.zero), ([0], Pos.zero)] 0 exS).1.det.psiMinv
        = exS.det.psiMinv)
    ∧ (((batchedElectronStep exOracle posValid (1/2) 1 0 exG
        [exW, exW]).walkers.getD 1 default).els.R
        = ([exW, exW].getD 1 default).els.R
      ∧ ((batchedElectronStep exOracle posValid (1/2) 1 0 exG
          [exW, exW]).walkers.getD 1 default).wf.psiM
        = ([exW, exW].getD 1 default).wf.psiM
      ∧ ((batchedElectronStep exOracle posValid (1/2) 1 0 exG
          [exW, exW]).walkers.getD 1 default).wf.psiMinv
        = ([exW, exW].getD 1 default).wf.psiMinv) :=
  ⟨(C4_reject_frame exOracle allValid (1/2) 0
      [([0], Pos.zero), ([0], Pos.zero)] 0 exS zeroG [] 0).1
      (by with_unfolding_all decide),
    (C4_reject_frame exOracle posValid (1/2) 1 [] 0 exS exG
      [exW, exW] 1).2 (by with_unfolding_all decide)
      (by with_unfolding_all decide)⟩

/-- Every event of one batched electron step belongs to its electron. -/
theorem batchedElectronStep_evs_elOf (oracle : Pos → List R)
    (valid : Pos → Bool) (accept sqrttau : R) (iel : Nat) (g : RNG)
    (ws : List Walker) (e : BEv)
    (he : e ∈ (batchedElectronStep oracle valid accept sqrttau iel g
      ws).evs) : e.elOf = iel := by
  rcases batchedElectronStep_evs_mem oracle valid accept sqrttau iel g ws e
    he with h | ⟨w, _, h⟩ | ⟨w, _, _, h | h | h⟩ <;> subst h <;> rfl

/-- Every trace event of a batched sweep belongs to one of its electrons. -/
theorem batchedSweepAux_evs_elOf (oracle : Pos → List R)
    (valid : Pos → Bool) (accept sqrttau : R) :
    ∀ (iels : List Nat) (g : RNG) (ws : List Walker) (e : BEv),
      e ∈ (batchedSweepAux oracle valid accept sqrttau iels g ws).2.2 →
      e.elOf ∈ iels := by
  intro iels
  induction iels with
  | nil => intro g ws e he; exact absurd he (by simp [batchedSweepAux])
  | cons iel rest ih =>
    intro g ws e he
    simp only [batchedSweepAux] at he
    rcases List.mem_append.mp he with he | he
    · rw [batchedElectronStep_evs_elOf oracle valid accept sqrttau iel g ws
        e he]
      exact List.mem_cons_self _ _
    · exact List.mem_cons_of_mem _ (ih _ _ _ he)

/-- Electron indices along a batched sweep's trace are monotone. -/
theorem batchedSweepAux_evs_pairwise (oracle : Pos → List R)
    (valid : Pos → Bool) (accept sqrttau : R) :
    ∀ (iels : List Nat), iels.Pairwise (· < ·) →
    ∀ (g : RNG) (ws : List Walker),
      ((batchedSweepAux oracle valid accept sqrttau iels g
        ws).2.2.map BEv.elOf).Pairwise (· ≤ ·) := by
  intro iels
  induction iels with
  | nil => intro _ g ws; simp [batchedSweepAux]
  | cons iel rest ih =>
    intro hp g ws
    simp only [batchedSweepAux, List.map_append]
    rw [List.pairwise_append]
    refine ⟨?_, ih (List.Pairwise.of_cons hp) _ _, ?_⟩
    · refine List.pairwise_of_forall_mem_list ?_
      intro a ha b hb
      rcases List.mem_map.mp ha with ⟨e, he, rfl⟩
      rcases List.mem_map.mp hb with ⟨e', he', rfl⟩
      rw [batchedElectronStep_evs_elOf oracle valid accept sqrttau iel g ws
        e he, batchedElectronStep_evs_elOf oracle valid accept sqrttau iel
        g ws e' he']
    · intro a ha b hb
      rcases List.mem_map.mp ha with ⟨e, he, rfl⟩
      rcases List.mem_map.mp hb with ⟨e', he', rfl⟩
      rw [batchedElectronStep_evs_elOf oracle valid accept sqrttau iel g ws
        e he]
      have hmem := batchedSweepAux_evs_elOf oracle valid accept sqrttau
        rest _ _ _ he'
      exact le_of_lt ((List.pairwise_cons.mp hp).1 _ hmem)

theorem filterMap_eq_nil_of_none {f : α → Option β} :
    ∀ {l : List α}, (∀ a ∈ l, f a = none) → l.filterMap f = []
  | [], _ => rfl
  | a :: as, h => by
    rw [List.filterMap_cons, h a (List.mem_cons_self _ _)]
    exact filterMap_eq_nil_of_none (fun b hb => h b (List.mem_cons_of_mem _ hb))

/-- One batched electron step marks exactly its own electron active. -/
theorem batchedElectronStep_evs_active (oracle : Pos → List R)
    (valid : Pos → Bool) (accept sqrttau : R) (iel : Nat) (g : RNG)
    (ws : List Walker) :
    (batchedElectronStep oracle valid accept sqrttau iel g
      ws).evs.filterMap BEv.activeOf = [iel] := by
  rw [batchedElectronStep_evs, List.filterMap_cons]
  have h1 : ∀ e ∈ ((List.range ws.length).map (fun w => BEv.evalGrad iel w)
      ++ ((List.range ws.length).filter (fun w =>
        (bstepIsValid valid sqrttau iel g ws).getD w false)).map
        (fun w => BEv.ratioGrad iel w)
      ++ ((List.range ws.length).filter (fun w =>
        (bstepIsValid valid sqrttau iel g ws).getD w false)).map
        (fun w =>
          if (bstepUr g ws.length).getD
              (countTrueBefore (bstepIsValid valid sqrttau iel g ws) w) 0
              < accept then
            BEv.commit iel w
          else BEv.restore iel w)),
      BEv.activeOf e = none := by
    intro e he
    rcases List.mem_append.mp he with he | he
    · rcases List.mem_append.mp he with he | he <;>
        rcases List.mem_map.mp he with ⟨w, _, rfl⟩ <;> rfl
    · rcases List.mem_map.mp he with ⟨w, _, rfl⟩
      split <;> rfl
  rw [filterMap_eq_nil_of_none h1]
  rfl

/-- The `setActive` markers of a batched sweep list its electrons in
order. -/
theorem batchedSweepAux_evs_active (oracle : Pos → List R)
    (valid : Pos → Bool) (accept sqrttau : R) :
    ∀ (iels : List Nat) (g : RNG) (ws : List Walker),
      (batchedSweepAux oracle valid accept sqrttau iels g
        ws).2.2.filterMap BEv.activeOf = iels := by
  intro iels
  induction iels with
  | nil => intro g ws; rfl
  | cons iel rest ih =>
    intro g ws
    simp only [batchedSweepAux]
    rw [List.filterMap_append,
      batchedElectronStep_evs_active oracle valid accept sqrttau iel g ws,
      ih]
    rfl

/-- The electron sequence of the check driver's sweep is its input list. -/
theorem checkDetSweepAux_els (oracle : Pos → List R) (valid : Pos → Bool)
    (accept sqrttau : R) (ur : List R) (delta : List Pos) :
    ∀ (iels : List Nat) (s : CDState),
      ((checkDetSweepAux oracle valid accept sqrttau ur delta iels
        s).2).map Prod.fst = iels := by
  intro iels
  induction iels with
  | nil => intro s; rfl
  | cons iel rest ih =>
    intro s
    simp only [checkDetSweepAux, List.map_cons]
    rw [ih]

/-- C5: electron indices are processed strictly sequentially.  In the check
driver one sweep visits electrons `0..nels-1` in exactly that order; in the
batched driver the sweep's `setActive` markers are `0..nels-1` in order, the
electron index of every trace event is monotone along the trace, and every
`commit` for electron `i` (any walker) precedes every ratio evaluation for
electron `i+1` (any walker). -/
theorem C5_sequential_electrons (oracle : Pos → List R)
    (valid : Pos → Bool) (accept sqrttau : R) (ur : List R)
    (delta : List Pos) (nels : Nat) (s : CDState) (g : RNG)
    (ws : List Walker) (p q i w w' : Nat) :
    ((checkDetSweepAux oracle valid accept sqrttau ur delta
        (List.range nels) s).2).map Prod.fst = List.range nels
    ∧ (batchedSweep oracle valid accept sqrttau nels g
        ws).2.2.filterMap BEv.activeOf = List.range nels
    ∧ ((batchedSweep oracle valid accept sqrttau nels g
        ws).2.2.map BEv.elOf).Pairwise (· ≤ ·)
    ∧ (p < (batchedSweep oracle valid accept sqrttau nels g
          ws).2.2.length →
        q < (batchedSweep oracle valid accept sqrttau nels g
          ws).2.2.length →
        (batchedSweep oracle valid accept sqrttau nels g ws).2.2.getD p
          BEv.donePbyP = BEv.commit i w →
        (batchedSweep oracle valid accept sqrttau nels g ws).2.2.getD q
          BEv.donePbyP = BEv.ratioGrad (i + 1) w' →
        p < q) := by
  refine ⟨checkDetSweepAux_els oracle valid accept sqrttau ur delta
      (List.range nels) s,
    batchedSweepAux_evs_active oracle valid accept sqrttau
      (List.range nels) g ws,
    batchedSweepAux_evs_pairwise oracle valid accept sqrttau
      (List.range nels) (List.pairwise_lt_range nels) g ws, ?_⟩
  intro hp hq hcp hcq
  by_contra hpq
  have hqp : q ≤ p := Nat.le_of_not_lt hpq
  have hmono := List.pairwise_iff_getElem.mp
    (batchedSweepAux_evs_pairwise oracle valid accept sqrttau
      (List.range nels) (List.pairwise_lt_range nels) g ws)
  rcases Nat.lt_or_ge q p with hlt | hge
  · have hmono2 := hmono q p (by simpa using hq) (by simpa using hp) hlt
    rw [List.getElem_map, List.getElem_map] at hmono2
    rw [List.getD_eq_getElem _ _ hp] at hcp
    rw [List.getD_eq_getElem _ _ hq] at hcq
    simp only [batchedSweep] at hcp hcq
    rw [hcp, hcq] at hmono2
    simp only [BEv.elOf] at hmono2
    omega
  · have hqe : q = p := Nat.le_antisymm hqp hge
    subst hqe
    rw [List.getD_eq_getElem _ _ hp] at hcp hcq
    rw [hcp] at hcq
    exact BEv.noConfusion hcq

/-- Witness for C5: in a concrete one-walker two-electron sweep the commit
of electron 0 sits at trace index 3, strictly before electron 1's ratio
evaluation at index 6. -/
theorem C5_sequential_electrons_witness :
    (batchedSweep exOracle2 allValid (1/2) 1 2 zeroG [wk2]).2.2.getD 3
        BEv.donePbyP = BEv.commit 0 0
    ∧ (batchedSweep exOracle2 allValid (1/2) 1 2 zeroG [wk2]).2.2.getD 6
        BEv.donePbyP = BEv.ratioGrad 1 0
    ∧ 3 < 6 :=
  ⟨by with_unfolding_all decide, by with_unfolding_all decide,
    (C5_sequential_electrons exOracle2 allValid (1/2) 1 [] [] 2 exS zeroG
      [wk2] 3 6 0 0 0).2.2.2 (by with_unfolding_all decide)
      (by with_unfolding_all decide) (by with_unfolding_all decide)
      (by with_unfolding_all decide)⟩

/-- Events of one batched electron step are never finalize or NLPP
events. -/
theorem batchedElectronStep_evs_not_finalize (oracle : Pos → List R)
    (valid : Pos → Bool) (accept sqrttau : R) (iel : Nat) (g : RNG)
    (ws : List Walker) (e : BEv)
    (he : e ∈ (batchedElectronStep oracle valid accept sqrttau iel g
      ws).evs) :
    e ≠ BEv.donePbyP ∧ e ≠ BEv.evaluateGL
    ∧ ∀ i w, e ≠ BEv.nlppEval i w := by
  rcases batchedElectronStep_evs_mem oracle valid accept sqrttau iel g ws e
    he with h | ⟨w, _, h⟩ | ⟨w, _, _, h | h | h⟩ <;> subst h <;>
    exact ⟨fun hh => BEv.noConfusion hh, fun hh => BEv.noConfusion hh,
      fun i w hh => BEv.noConfusion hh⟩

/-- Events of a batched sweep are never finalize or NLPP events. -/
theorem batchedSweepAux_evs_not_finalize (oracle : Pos → List R)
    (valid : Pos → Bool) (accept sqrttau : R) :
    ∀ (iels : List Nat) (g : RNG) (ws : List Walker) (e : BEv),
      e ∈ (batchedSweepAux oracle valid accept sqrttau iels g ws).2.2 →
      e ≠ BEv.donePbyP ∧ e ≠ BEv.evaluateGL
      ∧ ∀ i w, e ≠ BEv.nlppEval i w := by
  intro iels
  induction iels with
  | nil => intro g ws e he; exact absurd he (by simp [batchedSweepAux])
  | cons iel rest ih =>
    intro g ws e he
    simp only [batchedSweepAux] at he
    rcases List.mem_append.mp he with he | he
    · exact batchedElectronStep_evs_not_finalize oracle valid accept
        sqrttau iel g ws e he
    · exact ih _ _ _ he

/-- Events of the substep loop are never finalize or NLPP events. -/
theorem batchedSubsteps_evs_not_finalize (oracle : Pos → List R)
    (valid : Pos → Bool) (accept sqrttau : R) (nels : Nat) :
    ∀ (n : Nat) (g : RNG) (ws : List Walker) (e : BEv),
      e ∈ (batchedSubsteps oracle valid accept sqrttau nels n g ws).2.2 →
      e ≠ BEv.donePbyP ∧ e ≠ BEv.evaluateGL
      ∧ ∀ i w, e ≠ BEv.nlppEval i w := by
  intro n
  induction n with
  | zero => intro g ws e he; exact absurd he (by simp [batchedSubsteps])
  | succ m ih =>
    intro g ws e he
    simp only [batchedSubsteps] at he
    rcases List.mem_append.mp he with he | he
    · exact batchedSweepAux_evs_not_finalize oracle valid accept sqrttau
        _ _ _ _ he
    · exact ih _ _ _ he

/-- Every event of the NLPP pair-slot loop is an `nlppEval`. -/
theorem nlppLoop_evs_shape (oracle : Pos → List R) (nknots : Nat)
    (sphere : Nat → Nat → Pos) (eiLists : List (List (Int × Int))) :
    ∀ (is : List Nat) (ws : List Walker) (rs : List R) (e : BEv),
      e ∈ (nlppLoop oracle nknots sphere eiLists is ws rs).2.2 →
      ∃ i w, e = BEv.nlppEval i w := by
  intro is
  induction is with
  | nil => intro ws rs e he; exact absurd he (by simp [nlppLoop])
  | cons i rest ih =>
    intro ws rs e he
    simp only [nlppLoop] at he
    rcases List.mem_append.mp he with he | he
    · rcases List.mem_map.mp he with ⟨w, _, rfl⟩
      exact ⟨i, w, rfl⟩
    · exact ih _ _ _ he

/-- The trace of one batched Monte Carlo step: the substep sweeps, then
`donePbyP`, then `evaluateGL`, then the NLPP phase. -/
theorem batchedMCStep_evs (oracle : Pos → List R) (valid : Pos → Bool)
    (accept sqrttau Rmax : R) (nknots : Nat) (sphere : Nat → Nat → Pos)
    (nsubsteps nels : Nat) (dists : List (List (List R))) (g : RNG)
    (ws : List Walker) :
    (batchedMCStep oracle valid accept sqrttau Rmax nknots sphere nsubsteps
      nels dists g ws).2.2
      = (batchedSubsteps oracle valid accept sqrttau nels nsubsteps g
          ws).2.2
        ++ BEv.donePbyP :: BEv.evaluateGL ::
          (nlppPhase oracle Rmax nknots sphere dists
            (batchedSubsteps oracle valid accept sqrttau nels nsubsteps g
              ws).1).2.2 := rfl

/-- Where each kind of event can sit in a batched Monte Carlo step's trace,
relative to the length `L` of the substep portion: sweeps strictly before
`L`, `donePbyP` at `L`, `evaluateGL` at `L + 1`, NLPP events from `L + 2`
on. -/
theorem batchedMCStep_getD_cases (oracle : Pos → List R)
    (valid : Pos → Bool) (accept sqrttau Rmax : R) (nknots : Nat)
    (sphere : Nat → Nat → Pos) (nsubsteps nels : Nat)
    (dists : List (List (List R))) (g : RNG) (ws : List Walker) (p : Nat)
    (d : BEv)
    (hp : p < (batchedMCStep oracle valid accept sqrttau Rmax nknots sphere
      nsubsteps nels dists g ws).2.2.length) :
    (p < (batchedSubsteps oracle valid accept sqrttau nels nsubsteps g
        ws).2.2.length
      ∧ (batchedMCStep oracle valid accept sqrttau Rmax nknots sphere
          nsubsteps nels dists g ws).2.2.getD p d
        ∈ (batchedSubsteps oracle valid accept sqrttau nels nsubsteps g
          ws).2.2)
    ∨ (p = (batchedSubsteps oracle valid accept sqrttau nels nsubsteps g
        ws).2.2.length
      ∧ (batchedMCStep oracle valid accept sqrttau Rmax nknots sphere
          nsubsteps nels dists g ws).2.2.getD p d = BEv.donePbyP)
    ∨ (p = (batchedSubsteps oracle valid accept sqrttau nels nsubsteps g
        ws).2.2.length + 1
      ∧ (batchedMCStep oracle valid accept sqrttau Rmax nknots sphere
          nsubsteps nels dists g ws).2.2.getD p d = BEv.evaluateGL)
    ∨ ((batchedSubsteps oracle valid accept sqrttau nels nsubsteps g
        ws).2.2.length + 2 ≤ p
      ∧ (batchedMCStep oracle valid accept sqrttau Rmax nknots sphere
          nsubsteps nels dists g ws).2.2.getD p d
        ∈ (nlppPhase oracle Rmax nknots sphere dists
          (batchedSubsteps oracle valid accept sqrttau nels nsubsteps g
            ws).1).2.2) := by
  have hlen := hp
  rw [batchedMCStep_evs] at hlen
  simp only [List.length_append, List.length_cons] at hlen
  rw [batchedMCStep_evs]
  by_cases h1 : p < (batchedSubsteps oracle valid accept sqrttau nels
      nsubsteps g ws).2.2.length
  · refine Or.inl ⟨h1, ?_⟩
    rw [List.getD_append _ _ _ _ h1, List.getD_eq_getElem _ _ h1]
    exact List.getElem_mem h1
  · have h2 : (batchedSubsteps oracle valid accept sqrttau nels nsubsteps g
        ws).2.2.length ≤ p := Nat.le_of_not_lt h1
    rw [List.getD_append_right _ _ _ _ h2]
    have hm : p = (batchedSubsteps oracle valid accept sqrttau nels
        nsubsteps g ws).2.2.length
        ∨ p = (batchedSubsteps oracle valid accept sqrttau nels nsubsteps g
          ws).2.2.length + 1
        ∨ (batchedSubsteps oracle valid accept sqrttau nels nsubsteps g
          ws).2.2.length + 2 ≤ p := by omega
    rcases hm with hm | hm | hm
    · refine Or.inr (Or.inl ⟨hm, ?_⟩)
      have hidx : p - (batchedSubsteps oracle valid accept sqrttau nels
          nsubsteps g ws).2.2.length = 0 := by omega
      rw [hidx]
      rfl
    · refine Or.inr (Or.inr (Or.inl ⟨hm, ?_⟩))
      have hidx : p - (batchedSubsteps oracle valid accept sqrttau nels
          nsubsteps g ws).2.2.length = 1 := by omega
      rw [hidx]
      rfl
    · refine Or.inr (Or.inr (Or.inr ⟨hm, ?_⟩))
      have hidx : p - (batchedSubsteps oracle valid accept sqrttau nels
          nsubsteps g ws).2.2.length
          = (p - (batchedSubsteps oracle valid accept sqrttau nels
            nsubsteps g ws).2.2.length - 2) + 2 := by omega
      rw [hidx]
      show (nlppPhase oracle Rmax nknots sphere dists
        (batchedSubsteps oracle valid accept sqrttau nels nsubsteps g
          ws).1).2.2.getD (p - (batchedSubsteps oracle valid accept sqrttau
            nels nsubsteps g ws).2.2.length - 2) d ∈ _
      have hk : p - (batchedSubsteps oracle valid accept sqrttau nels
          nsubsteps g ws).2.2.length - 2
          < (nlppPhase oracle Rmax nknots sphere dists
          (batchedSubsteps oracle valid accept sqrttau nels nsubsteps g
            ws).1).2.2.length := by omega
      rw [List.getD_eq_getElem _ _ hk]
      exact List.getElem_mem hk

/-- C6 (counterexample): with `nsubsteps = 2` one Monte Carlo step of the
batched driver performs two complete sweeps over the (single) electron — two
`setActive 0` markers — but only ONE `donePbyP`/`evaluateGL` finalize, so
the finalize does not happen once per completed sweep; it happens once per
Monte Carlo step. -/
theorem C6_counterexample :
    (batchedMCStep exOracle allValid (1/2) 1 (17/10) 1
      (fun _ _ => Pos.zero) 2 1 [[[1]]] zeroG [exW]).2.2.count
        (BEv.setActive 0) = 2
    ∧ (batchedMCStep exOracle allValid (1/2) 1 (17/10) 1
        (fun _ _ => Pos.zero) 2 1 [[[1]]] zeroG [exW]).2.2.count
          BEv.donePbyP = 1
    ∧ (2 : Nat) ≠ 1 :=
  ⟨by with_unfolding_all decide, by with_unfolding_all decide, by decide⟩

/-- C6 (amended): in every batched Monte Carlo step the finalize runs once
per step, after the whole substep loop: the trace holds exactly one
`donePbyP` and one `evaluateGL`, every `donePbyP` precedes every
`evaluateGL`, both precede every pseudopotential evaluation, and every sweep
event (`setActive`) precedes the finalize. -/
theorem C6_finalize_once_per_step (oracle : Pos → List R)
    (valid : Pos → Bool) (accept sqrttau Rmax : R) (nknots : Nat)
    (sphere : Nat → Nat → Pos) (nsubsteps nels : Nat)
    (dists : List (List (List R))) (g : RNG) (ws : List Walker)
    (p q i w : Nat) (d : BEv) :
    (batchedMCStep oracle valid accept sqrttau Rmax nknots sphere nsubsteps
      nels dists g ws).2.2.count BEv.donePbyP = 1
    ∧ (batchedMCStep oracle valid accept sqrttau Rmax nknots sphere
        nsubsteps nels dists g ws).2.2.count BEv.evaluateGL = 1
    ∧ (p < (batchedMCStep oracle valid accept sqrttau Rmax nknots sphere
          nsubsteps nels dists g ws).2.2.length →
        q < (batchedMCStep oracle valid accept sqrttau Rmax nknots sphere
          nsubsteps nels dists g ws).2.2.length →
        (batchedMCStep oracle valid accept sqrttau Rmax nknots sphere
          nsubsteps nels dists g ws).2.2.getD p d = BEv.donePbyP →
        (batchedMCStep oracle valid accept sqrttau Rmax nknots sphere
          nsubsteps nels dists g ws).2.2.getD q d = BEv.evaluateGL →
        p < q)
    ∧ (p < (batchedMCStep oracle valid accept sqrttau Rmax nknots sphere
          nsubsteps nels dists g ws).2.2.length →
        q < (batchedMCStep oracle valid accept sqrttau Rmax nknots sphere
          nsubsteps nels dists g ws).2.2.length →
        (batchedMCStep oracle valid accept sqrttau Rmax nknots sphere
          nsubsteps nels dists g ws).2.2.getD p d = BEv.evaluateGL →
        (batchedMCStep oracle valid accept sqrttau Rmax nknots sphere
          nsubsteps nels dists g ws).2.2.getD q d = BEv.nlppEval i w →
        p < q)
    ∧ (p < (batchedMCStep oracle valid accept sqrttau Rmax nknots sphere
          nsubsteps nels dists g ws).2.2.length →
        q < (batchedMCStep oracle valid accept sqrttau Rmax nknots sphere
          nsubsteps nels dists g ws).2.2.length →
        (batchedMCStep oracle valid accept sqrttau Rmax nknots sphere
          nsubsteps nels dists g ws).2.2.getD p d = BEv.setActive i →
        (batchedMCStep oracle valid accept sqrttau Rmax nknots sphere
          nsubsteps nels dists g ws).2.2.getD q d = BEv.donePbyP →
        p < q) := by
  have hndone : BEv.donePbyP ∉ (batchedSubsteps oracle valid accept sqrttau
      nels nsubsteps g ws).2.2 := fun hmem =>
    (batchedSubsteps_evs_not_finalize oracle valid accept sqrttau nels
      nsubsteps g ws _ hmem).1 rfl
  have hngl : BEv.evaluateGL ∉ (batchedSubsteps oracle valid accept sqrttau
      nels nsubsteps g ws).2.2 := fun hmem =>
    (batchedSubsteps_evs_not_finalize oracle valid accept sqrttau nels
      nsubsteps g ws _ hmem).2.1 rfl
  have hnlShape : ∀ e ∈ (nlppPhase oracle Rmax nknots sphere dists
      (batchedSubsteps oracle valid accept sqrttau nels nsubsteps g
        ws).1).2.2, ∃ i' w', e = BEv.nlppEval i' w' := fun e hmem =>
    nlppLoop_evs_shape oracle nknots sphere _ _ _ _ e hmem
  have hnlD : BEv.donePbyP ∉ (nlppPhase oracle Rmax nknots sphere dists
      (batchedSubsteps oracle valid accept sqrttau nels nsubsteps g
        ws).1).2.2 := fun hmem => by
    rcases hnlShape _ hmem with ⟨i', w', h⟩
    exact BEv.noConfusion h
  have hnlG : BEv.evaluateGL ∉ (nlppPhase oracle Rmax nknots sphere dists
      (batchedSubsteps oracle valid accept sqrttau nels nsubsteps g
        ws).1).2.2 := fun hmem => by
    rcases hnlShape _ hmem with ⟨i', w', h⟩
    exact BEv.noConfusion h
  have hposD : ∀ r, r < (batchedMCStep oracle valid accept sqrttau Rmax
      nknots sphere nsubsteps nels dists g ws).2.2.length →
      (batchedMCStep oracle valid accept sqrttau Rmax nknots sphere
        nsubsteps nels dists g ws).2.2.getD r d = BEv.donePbyP →
      r = (batchedSubsteps oracle valid accept sqrttau nels nsubsteps g
        ws).2.2.length := by
    intro r hr he
    rcases batchedMCStep_getD_cases oracle valid accept sqrttau Rmax nknots
      sphere nsubsteps nels dists g ws r d hr with
      ⟨_, hmem⟩ | ⟨h, _⟩ | ⟨_, he2⟩ | ⟨_, hmem⟩
    · rw [he] at hmem
      exact absurd hmem hndone
    · exact h
    · rw [he] at he2
      exact BEv.noConfusion he2
    · rw [he] at hmem
      exact absurd hmem hnlD
  have hposG : ∀ r, r < (batchedMCStep oracle valid accept sqrttau Rmax
      nknots sphere nsubsteps nels dists g ws).2.2.length →
      (batchedMCStep oracle valid accept sqrttau Rmax nknots sphere
        nsubsteps nels dists g ws).2.2.getD r d = BEv.evaluateGL →
      r = (batchedSubsteps oracle valid accept sqrttau nels nsubsteps g
        ws).2.2.length + 1 := by
    intro r hr he
    rcases batchedMCStep_getD_cases oracle valid accept sqrttau Rmax nknots
      sphere nsubsteps nels dists g ws r d hr with
      ⟨_, hmem⟩ | ⟨_, he2⟩ | ⟨h, _⟩ | ⟨_, hmem⟩
    · rw [he] at hmem
      exact absurd hmem hngl
    · rw [he] at he2
      exact BEv.noConfusion he2
    · exact h
    · rw [he] at hmem
      exact absurd hmem hnlG
  have hposN : ∀ r i' w', r < (batchedMCStep oracle valid accept sqrttau
      Rmax nknots sphere nsubsteps nels dists g ws).2.2.length →
      (batchedMCStep oracle valid accept sqrttau Rmax nknots sphere
        nsubsteps nels dists g ws).2.2.getD r d = BEv.nlppEval i' w' →
      (batchedSubsteps oracle valid accept sqrttau nels nsubsteps g
        ws).2.2.length + 2 ≤ r := by
    intro r i' w' hr he
    rcases batchedMCStep_getD_cases oracle valid accept sqrttau Rmax nknots
      sphere nsubsteps nels dists g ws r d hr with
      ⟨_, hmem⟩ | ⟨_, he2⟩ | ⟨_, he2⟩ | ⟨h, _⟩
    · rw [he] at hmem
      exact absurd rfl
        ((batchedSubsteps_evs_not_finalize oracle valid accept sqrttau nels
          nsubsteps g ws _ hmem).2.2 i' w')
    · rw [he] at he2
      exact BEv.noConfusion he2
    · rw [he] at he2
      exact BEv.noConfusion he2
    · exact h
  have hposS : ∀ r i', r < (batchedMCStep oracle valid accept sqrttau Rmax
      nknots sphere nsubsteps nels dists g ws).2.2.length →
      (batchedMCStep oracle valid accept sqrttau Rmax nknots sphere
        nsubsteps nels dists g ws).2.2.getD r d = BEv.setActive i' →
      r < (batchedSubsteps oracle valid accept sqrttau nels nsubsteps g
        ws).2.2.length := by
    intro r i' hr he
    rcases batchedMCStep_getD_cases oracle valid accept sqrttau Rmax nknots
      sphere nsubsteps nels dists g ws r d hr with
      ⟨h, _⟩ | ⟨_, he2⟩ | ⟨_, he2⟩ | ⟨_, hmem⟩
    · exact h
    · rw [he] at he2
      exact BEv.noConfusion he2
    · rw [he] at he2
      exact BEv.noConfusion he2
    · rw [he] at hmem
      rcases hnlShape _ hmem with ⟨i2, w2, h2⟩
      exact BEv.noConfusion h2
  refine ⟨?_, ?_, ?_, ?_, ?_⟩
  · rw [batchedMCStep_evs, List.count_append,
      List.count_eq_zero.mpr hndone]
    simp [List.count_cons, List.count_eq_zero.mpr hnlD]
  · rw [batchedMCStep_evs, List.count_append,
      List.count_eq_zero.mpr hngl]
    simp [List.count_cons, List.count_eq_zero.mpr hnlG]
  · intro hp hq h1 h2
    have := hposD p hp h1
    have := hposG q hq h2
    omega
  · intro hp hq h1 h2
    have := hposG p hp h1
    have := hposN q i w hq h2
    omega
  · intro hp hq h1 h2
    have := hposS p i hp h1
    have := hposD q hq h2
    omega

/-- Witness for C6: in the concrete one-walker step (two substeps, one
in-cutoff pair) the finalize pair sits at indices 8 and 9, after the sweeps
and before the pseudopotential evaluation at index 10. -/
theorem C6_finalize_once_per_step_witness :
    (batchedMCStep exOracle allValid (1/2) 1 (17/10) 1
        (fun _ _ => Pos.zero) 2 1 [[[1]]] zeroG [exW]).2.2.getD 8
        (BEv.restore 0 0) = BEv.donePbyP
    ∧ (batchedMCStep exOracle allValid (1/2) 1 (17/10) 1
        (fun _ _ => Pos.zero) 2 1 [[[1]]] zeroG [exW]).2.2.getD 9
        (BEv.restore 0 0) = BEv.evaluateGL
    ∧ (8 : Nat) < 9 ∧ (9 : Nat) < 10 ∧ (0 : Nat) < 8 :=
  ⟨by with_unfolding_all decide, by with_unfolding_all decide,
    (C6_finalize_once_per_step exOracle allValid (1/2) 1 (17/10) 1
      (fun _ _ => Pos.zero) 2 1 [[[1]]] zeroG [exW] 8 9 0 0
      (BEv.restore 0 0)).2.2.1 (by with_unfolding_all decide)
      (by with_unfolding_all decide) (by with_unfolding_all decide)
      (by with_unfolding_all decide),
    (C6_finalize_once_per_step exOracle allValid (1/2) 1 (17/10) 1
      (fun _ _ => Pos.zero) 2 1 [[[1]]] zeroG [exW] 9 10 0 0
      (BEv.restore 0 0)).2.2.2.1 (by with_unfolding_all decide)
      (by with_unfolding_all decide) (by with_unfolding_all decide)
      (by with_unfolding_all decide),
    (C6_finalize_once_per_step exOracle allValid (1/2) 1 (17/10) 1
      (fun _ _ => Pos.zero) 2 1 [[[1]]] zeroG [exW] 0 8 0 0
      (BEv.restore 0 0)).2.2.2.2 (by with_unfolding_all decide)
      (by with_unfolding_all decide) (by with_unfolding_all decide)
      (by with_unfolding_all decide)⟩

/-- The quadrature loop of a pair slot touches neither the particle set nor
the Slater matrix nor the inverse, and leaves no scratch row behind. -/
theorem slotEvalGo_frame (oracle : Pos → List R) (sphere : Nat → Pos)
    (elNum : Nat) :
    ∀ (ks : List Nat) (acc : Walker × List R),
      (slotEvalGo oracle sphere elNum ks acc).1.els = acc.1.els
      ∧ (slotEvalGo oracle sphere elNum ks acc).1.wf.psiM = acc.1.wf.psiM
      ∧ (slotEvalGo oracle sphere elNum ks acc).1.wf.psiMinv
        = acc.1.wf.psiMinv
      ∧ (acc.1.wf.psiV = none →
        (slotEvalGo oracle sphere elNum ks acc).1.wf.psiV = none) := by
  intro ks
  induction ks with
  | nil => intro acc; exact ⟨rfl, rfl, rfl, fun h => h⟩
  | cons k ks ih =>
    intro acc
    simp only [slotEvalGo]
    have h := ih ({ acc.1 with
      wf := ((acc.1.wf.ratio oracle elNum
        (Pos.add (acc.1.els.R.getD elNum Pos.zero)
          (sphere k))).1).discardMove },
      acc.2 ++ [(acc.1.wf.ratio oracle elNum
        (Pos.add (acc.1.els.R.getD elNum Pos.zero) (sphere k))).2])
    exact ⟨h.1, h.2.1, h.2.2.1, fun _ => h.2.2.2 rfl⟩

theorem multi_ratio_walkers_length (oracle : Pos → List R) (nknots : Nat)
    (sphere : Nat → Nat → Pos) (eiLists : List (List (Int × Int)))
    (i : Nat) (ws : List Walker) (ratios : List R) :
    (multi_ratio oracle nknots sphere eiLists i ws ratios).1.length
      = ws.length := eachIdx_length _ _

theorem multi_ratio_ratios_length (oracle : Pos → List R) (nknots : Nat)
    (sphere : Nat → Nat → Pos) (eiLists : List (List (Int × Int)))
    (i : Nat) (ws : List Walker) (ratios : List R) :
    (multi_ratio oracle nknots sphere eiLists i ws ratios).2.length
      = ratios.length := eachIdx_length _ _

theorem multi_ratio_walkers_getD (oracle : Pos → List R) (nknots : Nat)
    (sphere : Nat → Nat → Pos) (eiLists : List (List (Int × Int)))
    (i : Nat) (ws : List Walker) (ratios : List R) (iw : Nat)
    (h : iw < ws.length) :
    (multi_ratio oracle nknots sphere eiLists i ws ratios).1.getD iw default
      = (if ((eiLists.getD iw []).getD i (-1, 0)).1 = -1 then
          ws.getD iw default
        else
          (slotEval oracle nknots (sphere iw)
            ((eiLists.getD iw []).getD i (-1, 0)).1.toNat
            (ws.getD iw default)).1) := by
  simp only [multi_ratio]
  exact eachIdx_getD _ _ iw default default h

/-- One pair slot mutates no walker's particle set, matrix or inverse. -/
theorem multi_ratio_frame (oracle : Pos → List R) (nknots : Nat)
    (sphere : Nat → Nat → Pos) (eiLists : List (List (Int × Int)))
    (i : Nat) (ws : List Walker) (ratios : List R) (iw : Nat)
    (h : iw < ws.length) :
    ((multi_ratio oracle nknots sphere eiLists i ws ratios).1.getD iw
      default).els = (ws.getD iw default).els
    ∧ ((multi_ratio oracle nknots sphere eiLists i ws ratios).1.getD iw
      default).wf.psiM = (ws.getD iw default).wf.psiM
    ∧ ((multi_ratio oracle nknots sphere eiLists i ws ratios).1.getD iw
      default).wf.psiMinv = (ws.getD iw default).wf.psiMinv
    ∧ ((ws.getD iw default).wf.psiV = none →
      ((multi_ratio oracle nknots sphere eiLists i ws ratios).1.getD iw
        default).wf.psiV = none) := by
  rw [multi_ratio_walkers_getD oracle nknots sphere eiLists i ws ratios iw
    h]
  split
  · exact ⟨rfl, rfl, rfl, fun hh => hh⟩
  · exact slotEvalGo_frame oracle (sphere iw) _ (List.range nknots)
      (ws.getD iw default, [])

/-- A pair slot that holds the sentinel for a walker leaves that walker's
ratio entries untouched. -/
theorem multi_ratio_ratios_sentinel (oracle : Pos → List R) (nknots : Nat)
    (sphere : Nat → Nat → Pos) (eiLists : List (List (Int × Int)))
    (i : Nat) (ws : List Walker) (ratios : List R) (n : Nat)
    (h : n < ratios.length)
    (hs : ((eiLists.getD (n / nknots) []).getD i (-1, 0)).1 = -1) :
    (multi_ratio oracle nknots sphere eiLists i ws ratios).2.getD n 0
      = ratios.getD n 0 := by
  simp only [multi_ratio]
  rw [eachIdx_getD _ _ n 0 0 h, if_pos hs]

/-- Walker frame through the whole NLPP pair-slot loop. -/
theorem nlppLoop_walkers_frame (oracle : Pos → List R) (nknots : Nat)
    (sphere : Nat → Nat → Pos) (eiLists : List (List (Int × Int))) :
    ∀ (is : List Nat) (ws : List Walker) (rs : List R) (iw : Nat),
      iw < ws.length →
      ((nlppLoop oracle nknots sphere eiLists is ws rs).1.getD iw
        default).els = (ws.getD iw default).els
      ∧ ((nlppLoop oracle nknots sphere eiLists is ws rs).1.getD iw
        default).wf.psiM = (ws.getD iw default).wf.psiM
      ∧ ((nlppLoop oracle nknots sphere eiLists is ws rs).1.getD iw
        default).wf.psiMinv = (ws.getD iw default).wf.psiMinv
      ∧ ((ws.getD iw default).wf.psiV = none →
        ((nlppLoop oracle nknots sphere eiLists is ws rs).1.getD iw
          default).wf.psiV = none) := by
  intro is
  induction is with
  | nil => intro ws rs iw _; exact ⟨rfl, rfl, rfl, fun h => h⟩
  | cons i rest ih =>
    intro ws rs iw hw
    simp only [nlppLoop]
    have hstep := multi_ratio_frame oracle nknots sphere eiLists i ws rs
      iw hw
    have hw2 : iw < (multi_ratio oracle nknots sphere eiLists i ws
        rs).1.length := by
      rw [multi_ratio_walkers_length]
      exact hw
    have hrest := ih (multi_ratio oracle nknots sphere eiLists i ws rs).1
      (multi_ratio oracle nknots sphere eiLists i ws rs).2 iw hw2
    exact ⟨hrest.1.trans hstep.1, hrest.2.1.trans hstep.2.1,
      hrest.2.2.1.trans hstep.2.2.1,
      fun hn => (by
        rw [hrest.2.2.2 (hstep.2.2.2 hn)] :
        ((nlppLoop oracle nknots sphere eiLists rest _ _).1.getD iw
          default).wf.psiV = none)⟩

/-- Ratio entries of a walker whose slots are all sentinels stay as given
through the NLPP loop. -/
theorem nlppLoop_ratios_sentinel (oracle : Pos → List R) (nknots : Nat)
    (sphere : Nat → Nat → Pos) (eiLists : List (List (Int × Int)))
    (w : Nat)
    (hsent : ∀ i, ((eiLists.getD w []).getD i (-1, 0)).1 = -1) :
    ∀ (is : List Nat) (ws : List Walker) (rs : List R) (n : Nat),
      n < rs.length → n / nknots = w →
      (nlppLoop oracle nknots sphere eiLists is ws rs).2.1.getD n 0
        = rs.getD n 0 := by
  intro is
  induction is with
  | nil => intro ws rs n _ _; rfl
  | cons i rest ih =>
    intro ws rs n hn hw
    simp only [nlppLoop]
    have hn2 : n < (multi_ratio oracle nknots sphere eiLists i ws
        rs).2.length := by
      rw [multi_ratio_ratios_length]
      exact hn
    rw [ih (multi_ratio oracle nknots sphere eiLists i ws rs).1
      (multi_ratio oracle nknots sphere eiLists i ws rs).2 n hn2 hw]
    exact multi_ratio_ratios_sentinel oracle nknots sphere eiLists i ws rs
      n hn (by rw [hw]; exact hsent i)

/-- Every non-sentinel slot of every walker is visited by the NLPP loop. -/
theorem nlppLoop_mem (oracle : Pos → List R) (nknots : Nat)
    (sphere : Nat → Nat → Pos) (eiLists : List (List (Int × Int))) :
    ∀ (is : List Nat) (ws : List Walker) (rs : List R) (i w : Nat),
      i ∈ is → w < ws.length →
      ((eiLists.getD w []).getD i (-1, 0)).1 ≠ -1 →
      BEv.nlppEval i w
        ∈ (nlppLoop oracle nknots sphere eiLists is ws rs).2.2 := by
  intro is
  induction is with
  | nil => intro ws rs i w hi _ _; exact absurd hi (List.not_mem_nil _)
  | cons j rest ih =>
    intro ws rs i w hi hw hns
    simp only [nlppLoop]
    rcases List.mem_cons.mp hi with rfl | hi
    · refine List.mem_append_left _ ?_
      refine List.mem_map.mpr ⟨w, ?_, rfl⟩
      refine List.mem_filter.mpr ⟨List.mem_range.mpr hw, ?_⟩
      simpa using hns
    · refine List.mem_append_right _ ?_
      refine ih _ _ i w hi ?_ hns
      rw [multi_ratio_walkers_length]
      exact hw

/-- Slot `i` of a walker's `EiLists` row is its `i`-th in-cutoff pair when
one exists. -/
theorem EiList_getD (maxSize : Nat) (pairs : List (Int × Int)) (i : Nat)
    (hi : i < maxSize) :
    (EiList maxSize pairs).getD i (-1, 0) = pairs.getD i (-1, 0) := by
  unfold EiList
  rw [getD_map_lt (fun j => pairs.getD j (-1, 0)) (List.range maxSize) i _
    0 (by simpa using hi)]
  rw [List.getD_eq_getElem (List.range maxSize) 0 (by simpa using hi),
    List.getElem_range]

/-- Slot `i` of a walker's `EiLists` row holds the sentinel electron index
`-1` when the walker has at most `i` pairs. -/
theorem EiList_sentinel (maxSize : Nat) (pairs : List (Int × Int)) (i : Nat)
    (hi : i < maxSize) (hp : pairs.length ≤ i) :
    (EiList maxSize pairs).getD i (-1, 0) = (-1, 0) := by
  rw [EiList_getD maxSize pairs i hi]
  exact List.getD_eq_default _ _ hp

theorem multi_ratio_walkers_sentinel (oracle : Pos → List R) (nknots : Nat)
    (sphere : Nat → Nat → Pos) (eiLists : List (List (Int × Int)))
    (i : Nat) (ws : List Walker) (ratios : List R) (iw : Nat)
    (h : iw < ws.length)
    (hs : ((eiLists.getD iw []).getD i (-1, 0)).1 = -1) :
    (multi_ratio oracle nknots sphere eiLists i ws ratios).1.getD iw
      default = ws.getD iw default := by
  rw [multi_ratio_walkers_getD oracle nknots sphere eiLists i ws ratios iw
    h, if_pos hs]

/-- C8: the pseudopotential phase only accumulates ratio values: after the
whole phase every walker's particle set is bit-identical, its Slater matrix
and maintained inverse are bit-identical, no pending scratch row survives,
and the phase's trace consists of nothing but `nlppEval` events — no trial
position is ever committed. -/
theorem C8_nlpp_no_mutation (oracle : Pos → List R) (Rmax : R)
    (nknots : Nat) (sphere : Nat → Nat → Pos)
    (dists : List (List (List R))) (ws : List Walker) (iw : Nat)
    (hw : iw < ws.length) :
    ((nlppPhase oracle Rmax nknots sphere dists ws).1.getD iw default).els
      = (ws.getD iw default).els
    ∧ ((nlppPhase oracle Rmax nknots sphere dists ws).1.getD iw
      default).wf.psiM = (ws.getD iw default).wf.psiM
    ∧ ((nlppPhase oracle Rmax nknots sphere dists ws).1.getD iw
      default).wf.psiMinv = (ws.getD iw default).wf.psiMinv
    ∧ ((ws.getD iw default).wf.psiV = none →
      ((nlppPhase oracle Rmax nknots sphere dists ws).1.getD iw
        default).wf.psiV = none)
    ∧ (∀ e ∈ (nlppPhase oracle Rmax nknots sphere dists ws).2.2,
      ∃ i w, e = BEv.nlppEval i w) := by
  have hfr := nlppLoop_walkers_frame oracle nknots sphere
    (dists.map (fun d2 => EiList (maxPairs Rmax dists) (eiPairs Rmax d2)))
    (List.range (maxPairs Rmax dists)) ws
    (List.replicate (ws.length * nknots) 0) iw hw
  exact ⟨hfr.1, hfr.2.1, hfr.2.2.1, hfr.2.2.2,
    fun e he => nlppLoop_evs_shape oracle nknots sphere _ _ _ _ e he⟩

/-- Witness for C8: in a concrete one-walker phase with one in-cutoff pair
the walker's particle set is unchanged and no scratch row survives. -/
theorem C8_nlpp_no_mutation_witness :
    ((nlppPhase exOracle (17/10) 1 (fun _ _ => Pos.zero) [[[1]]]
      [exW]).1.getD 0 default).els = ([exW].getD 0 default).els
    ∧ ((nlppPhase exOracle (17/10) 1 (fun _ _ => Pos.zero) [[[1]]]
      [exW]).1.getD 0 default).wf.psiV = none :=
  ⟨(C8_nlpp_no_mutation exOracle (17/10) 1 (fun _ _ => Pos.zero) [[[1]]]
      [exW] 0 (by decide)).1,
    (C8_nlpp_no_mutation exOracle (17/10) 1 (fun _ _ => Pos.zero) [[[1]]]
      [exW] 0 (by decide)).2.2.2.1 (by with_unfolding_all decide)⟩

/-- C9: the batched pseudopotential loop is pair-index-synchronous up to the
maximum pair count: a walker with at most `i` pairs has slot `i` filled with
the sentinel electron index `-1`; a sentinel slot is a no-op for that walker
(walker untouched, its ratio entries untouched); every non-sentinel slot of
every walker below the maximum is visited; and a walker with no pairs at
all keeps the initial `0.0` in its ratio entries after the whole phase. -/
theorem C9_nlpp_sentinel_noop (oracle : Pos → List R) (Rmax : R)
    (nknots : Nat) (sphere : Nat → Nat → Pos)
    (dists : List (List (List R))) (ws : List Walker) (w i k : Nat) :
    (i < maxPairs Rmax dists →
      (eiPairs Rmax (dists.getD w [])).length ≤ i →
      (EiList (maxPairs Rmax dists)
        (eiPairs Rmax (dists.getD w []))).getD i (-1, 0) = (-1, 0))
    ∧ (∀ (ws2 : List Walker) (rs : List R), w < ws2.length →
      (((dists.map (fun d2 => EiList (maxPairs Rmax dists)
          (eiPairs Rmax d2))).getD w []).getD i (-1, 0)).1 = -1 →
      (multi_ratio oracle nknots sphere
        (dists.map (fun d2 => EiList (maxPairs Rmax dists)
          (eiPairs Rmax d2))) i ws2 rs).1.getD w default
        = ws2.getD w default)
    ∧ (∀ (ws2 : List Walker) (rs : List R) (n : Nat), n < rs.length →
      (((dists.map (fun d2 => EiList (maxPairs Rmax dists)
          (eiPairs Rmax d2))).getD (n / nknots) []).getD i (-1, 0)).1
        = -1 →
      (multi_ratio oracle nknots sphere
        (dists.map (fun d2 => EiList (maxPairs Rmax dists)
          (eiPairs Rmax d2))) i ws2 rs).2.getD n 0 = rs.getD n 0)
    ∧ (i < maxPairs Rmax dists → w < ws.length →
      (((dists.map (fun d2 => EiList (maxPairs Rmax dists)
          (eiPairs Rmax d2))).getD w []).getD i (-1, 0)).1 ≠ -1 →
      BEv.nlppEval i w
        ∈ (nlppPhase oracle Rmax nknots sphere dists ws).2.2)
    ∧ ((eiPairs Rmax (dists.getD w [])).length = 0 → w < ws.length →
      k < nknots →
      (nlppPhase oracle Rmax nknots sphere dists ws).2.1.getD
        (w * nknots + k) 0 = 0) := by
  refine ⟨?_, ?_, ?_, ?_, ?_⟩
  · intro hi hp
    exact EiList_sentinel _ _ i hi hp
  · intro ws2 rs hw hs
    exact multi_ratio_walkers_sentinel oracle nknots sphere _ i ws2 rs w
      hw hs
  · intro ws2 rs n hn hs
    exact multi_ratio_ratios_sentinel oracle nknots sphere _ i ws2 rs n
      hn hs
  · intro hi hw hns
    exact nlppLoop_mem oracle nknots sphere _ _ ws _ i w
      (List.mem_range.mpr hi) hw hns
  · intro hp hw hk
    have hk0 : 0 < nknots := Nat.pos_of_ne_zero (by omega)
    have hsent : ∀ j, (((dists.map (fun d2 => EiList (maxPairs Rmax dists)
        (eiPairs Rmax d2))).getD w []).getD j (-1, 0)).1 = -1 := by
      intro j
      by_cases hwd : w < dists.length
      · rw [getD_map_lt _ dists w _ [] hwd]
        by_cases hj : j < maxPairs Rmax dists
        · rw [EiList_sentinel _ _ j hj (by omega)]
        · rw [List.getD_eq_default]
          unfold EiList
          simp only [List.length_map, List.length_range]
          omega
      · have hlen3 : (dists.map (fun d2 => EiList (maxPairs Rmax dists)
            (eiPairs Rmax d2))).length ≤ w := by
          rw [List.length_map]
          omega
        rw [List.getD_eq_default _ _ hlen3]
        rfl
    have hdiv : (w * nknots + k) / nknots = w := by
      rw [Nat.mul_comm w nknots, Nat.mul_add_div hk0,
        Nat.div_eq_of_lt hk]
      omega
    have hlt : w * nknots + k < ws.length * nknots := by
      calc w * nknots + k < w * nknots + nknots := by omega
        _ = (w + 1) * nknots := by ring
        _ ≤ ws.length * nknots := Nat.mul_le_mul_right _ (by omega)
    have hlen : w * nknots + k
        < (List.replicate (ws.length * nknots) (0 : R)).length := by
      rw [List.length_replicate]
      exact hlt
    have := nlppLoop_ratios_sentinel oracle nknots sphere
      (dists.map (fun d2 => EiList (maxPairs Rmax dists)
        (eiPairs Rmax d2))) w hsent
      (List.range (maxPairs Rmax dists)) ws
      (List.replicate (ws.length * nknots) 0) (w * nknots + k) hlen hdiv
    rw [show (nlppPhase oracle Rmax nknots sphere dists ws).2.1
        = (nlppLoop oracle nknots sphere
          (dists.map (fun d2 => EiList (maxPairs Rmax dists)
            (eiPairs Rmax d2))) (List.range (maxPairs Rmax dists)) ws
          (List.replicate (ws.length * nknots) 0)).2.1 from rfl, this]
    exact getD_replicate_lt 0 0 hlt

/-- Witness for C9: with two walkers — walker 0 with one in-cutoff pair,
walker 1 with none — slot 0 of walker 1 is the sentinel, walker 0's slot 0
is evaluated, and walker 1's ratio entry stays `0.0`. -/
theorem C9_nlpp_sentinel_noop_witness :
    (EiList (maxPairs (17/10) [[[1]], [[]]])
      (eiPairs (17/10) ([[[1]], [[]]].getD 1 []))).getD 0 (-1, 0)
      = (-1, 0)
    ∧ BEv.nlppEval 0 0
      ∈ (nlppPhase exOracle (17/10) 1 (fun _ _ => Pos.zero)
        [[[1]], [[]]] [exW, exW]).2.2
    ∧ (nlppPhase exOracle (17/10) 1 (fun _ _ => Pos.zero) [[[1]], [[]]]
      [exW, exW]).2.1.getD (1 * 1 + 0) 0 = 0 :=
  ⟨(C9_nlpp_sentinel_noop exOracle (17/10) 1 (fun _ _ => Pos.zero)
      [[[1]], [[]]] [exW, exW] 1 0 0).1 (by with_unfolding_all decide)
      (by with_unfolding_all decide),
    (C9_nlpp_sentinel_noop exOracle (17/10) 1 (fun _ _ => Pos.zero)
      [[[1]], [[]]] [exW, exW] 0 0 0).2.2.2.1
      (by with_unfolding_all decide) (by with_unfolding_all decide)
      (by with_unfolding_all decide),
    (C9_nlpp_sentinel_noop exOracle (17/10) 1 (fun _ _ => Pos.zero)
      [[[1]], [[]]] [exW, exW] 1 0 0).2.2.2.2
      (by with_unfolding_all decide) (by with_unfolding_all decide)
      (by with_unfolding_all decide)⟩

/-- C7: with no command-line options the drivers run with seed 11, 5 Monte
Carlo steps, 1 substep, diffusion time step `tau = 2.0` — the displacement
scale being `sqrt(tau) = sqrt 2` — and acceptance threshold `0.5`, in both
the check driver and the batched driver. -/
theorem C7_default_parameters :
    checkDetDefaults.iseed = 11 ∧ checkDetDefaults.nsteps = 5
    ∧ checkDetDefaults.nsubsteps = 1 ∧ checkDetDefaults.tau = 2
    ∧ checkDetDefaults.accept = 1/2
    ∧ syncMoveDefaults.iseed = 11 ∧ syncMoveDefaults.nsteps = 5
    ∧ syncMoveDefaults.nsubsteps = 1 ∧ syncMoveDefaults.tau = 2
    ∧ syncMoveDefaults.accept = 1/2
    ∧ sqrttauOf checkDetDefaults.tau = Real.sqrt 2
    ∧ sqrttauOf syncMoveDefaults.tau = Real.sqrt 2 := by
  refine ⟨rfl, rfl, rfl, rfl, rfl, rfl, rfl, rfl, rfl, rfl, ?_, ?_⟩ <;>
    · show Real.sqrt ((2 : R) : ℝ) = Real.sqrt 2
      norm_num

/-- A check-driver electron step's decision is `invalid` or the fixed
function of the electron's entry of `ur`. -/
theorem checkDetElectronStep_dec (oracle : Pos → List R)
    (valid : Pos → Bool) (accept : R) (ur : List R) (dr : Pos) (iel : Nat)
    (s : CDState) :
    (checkDetElectronStep oracle valid accept ur dr iel s).2
      = Decision.invalid
    ∨ (checkDetElectronStep oracle valid accept ur dr iel s).2
      = (if accept < ur.getD iel 0 then Decision.accepted
        else Decision.rejected) := by
  by_cases hv : (s.els.makeMoveAndCheck valid iel dr).2 = true
  · exact Or.inr
      (checkDetElectronStep_of_valid oracle valid accept ur dr iel s hv)
  · have hb : (s.els.makeMoveAndCheck valid iel dr).2 = false := by
      revert hv
      cases (s.els.makeMoveAndCheck valid iel dr).2 <;> simp
    rw [checkDetElectronStep_of_invalid oracle valid accept ur dr iel s hb]
    exact Or.inl rfl

/-- All sweep decisions are `invalid` or the fixed function of `ur`. -/
theorem checkDetSweepAux_dec (oracle : Pos → List R) (valid : Pos → Bool)
    (accept sqrttau : R) (ur : List R) (delta : List Pos) :
    ∀ (iels : List Nat) (s : CDState) (iel : Nat) (dc : Decision),
      (iel, dc) ∈ (checkDetSweepAux oracle valid accept sqrttau ur delta
        iels s).2 →
      dc = Decision.invalid
      ∨ dc = (if accept < ur.getD iel 0 then Decision.accepted
        else Decision.rejected) := by
  intro iels
  induction iels with
  | nil => intro s iel dc h; exact absurd h (List.not_mem_nil _)
  | cons j rest ih =>
    intro s iel dc h
    simp only [checkDetSweepAux] at h
    rcases List.mem_cons.mp h with h | h
    · rw [Prod.mk.injEq] at h
      obtain ⟨rfl, rfl⟩ := h
      exact checkDetElectronStep_dec oracle valid accept ur _ iel s
    · exact ih _ iel dc h

/-- All substep decisions are `invalid` or the fixed function of `ur`. -/
theorem checkDetSubsteps_dec (oracle : Pos → List R) (valid : Pos → Bool)
    (accept sqrttau : R) (ur : List R) (nels mc0 : Nat) :
    ∀ (ls : List Nat) (g : RNG) (s : CDState) (mc l iel : Nat)
      (dc : Decision),
      (mc, l, iel, dc) ∈ (checkDetSubsteps oracle valid accept sqrttau ur
        nels mc0 ls g s).2.2 →
      dc = Decision.invalid
      ∨ dc = (if accept < ur.getD iel 0 then Decision.accepted
        else Decision.rejected) := by
  intro ls
  induction ls with
  | nil => intro g s mc l iel dc h; exact absurd h (List.not_mem_nil _)
  | cons j rest ih =>
    intro g s mc l iel dc h
    simp only [checkDetSubsteps] at h
    rcases List.mem_append.mp h with h | h
    · rcases List.mem_map.mp h with ⟨p, hp, heq⟩
      rw [Prod.mk.injEq] at heq
      obtain ⟨-, heq⟩ := heq
      rw [Prod.mk.injEq] at heq
      obtain ⟨-, heq⟩ := heq
      rw [Prod.mk.injEq] at heq
      obtain ⟨h1, h2⟩ := heq
      subst h1
      subst h2
      exact checkDetSweepAux_dec oracle valid accept sqrttau ur _ _ _ _ _
        hp
    · exact ih _ _ mc l iel dc h

/-- All step-loop decisions are `invalid` or the fixed function of `ur`. -/
theorem checkDetSteps_dec (oracle : Pos → List R) (valid : Pos → Bool)
    (accept sqrttau : R) (linv : List (List R) → List (List R))
    (ur : List R) (nels nsubsteps : Nat) :
    ∀ (mcs : List Nat) (g : RNG) (s : CDState) (mc l iel : Nat)
      (dc : Decision),
      (mc, l, iel, dc) ∈ (checkDetSteps oracle valid accept sqrttau linv
        ur nels nsubsteps mcs g s).2.2 →
      dc = Decision.invalid
      ∨ dc = (if accept < ur.getD iel 0 then Decision.accepted
        else Decision.rejected) := by
  intro mcs
  induction mcs with
  | nil => intro g s mc l iel dc h; exact absurd h (List.not_mem_nil _)
  | cons j rest ih =>
    intro g s mc l iel dc h
    simp only [checkDetSteps] at h
    rcases List.mem_append.mp h with h | h
    · exact checkDetSubsteps_dec oracle valid accept sqrttau ur nels j _
        _ _ mc l iel dc h
    · exact ih _ _ mc l iel dc h

/-- C10: in a check_determinant run the uniform vector `ur` is drawn once
before the Monte Carlo loop and never refreshed, so every non-invalid
decision for electron `iel` — in any step and any substep — equals the one
fixed function of `ur[iel]`; in particular any two such decisions are
equal. -/
theorem C10_ur_drawn_once (oracle : Pos → List R) (valid : Pos → Bool)
    (accept sqrttau : R) (linv : List (List R) → List (List R))
    (nsteps nsubsteps nels : Nat) (g0 : RNG) (s0 : CDState)
    (mc1 l1 mc2 l2 iel : Nat) (d1 d2 : Decision)
    (h1 : (mc1, l1, iel, d1) ∈ (checkDetRun oracle valid accept sqrttau
      linv nsteps nsubsteps nels g0 s0).2.2)
    (h2 : (mc2, l2, iel, d2) ∈ (checkDetRun oracle valid accept sqrttau
      linv nsteps nsubsteps nels g0 s0).2.2)
    (hd1 : d1 ≠ Decision.invalid) (hd2 : d2 ≠ Decision.invalid) :
    d1 = d2
    ∧ d1 = (if accept < (g0.generate nels).1.getD iel 0 then
        Decision.accepted
      else Decision.rejected) := by
  have e1 := checkDetSteps_dec oracle valid accept sqrttau linv
    (g0.generate nels).1 nels nsubsteps (List.range nsteps)
    (g0.generate nels).2 s0 mc1 l1 iel d1 h1
  have e2 := checkDetSteps_dec oracle valid accept sqrttau linv
    (g0.generate nels).1 nels nsubsteps (List.range nsteps)
    (g0.generate nels).2 s0 mc2 l2 iel d2 h2
  rcases e1 with e1 | e1
  · exact absurd e1 hd1
  rcases e2 with e2 | e2
  · exact absurd e2 hd2
  exact ⟨e1.trans e2.symm, e1⟩

/-- Witness for C10: in the concrete two-step run with all draws `0`, the
valid proposals of electron 0 at steps 0 and 1 both receive the decision
`rejected` — the single pre-loop draw `0` is below the threshold `1/2`. -/
theorem C10_ur_drawn_once_witness :
    Decision.rejected = Decision.rejected
    ∧ Decision.rejected
      = (if (1/2 : R) < (zeroG.generate 1).1.getD 0 0 then
          Decision.accepted
        else Decision.rejected) :=
  C10_ur_drawn_once exOracle allValid (1/2) 1 (fun m => m) 2 1 1 zeroG exS
    0 0 1 0 0 Decision.rejected Decision.rejected
    (by with_unfolding_all decide) (by with_unfolding_all decide)
    (by with_unfolding_all decide) (by with_unfolding_all decide)

end MiniQMC
